import Mathlib

/-!
# HolodeckEngine

A shallow embedding of `src/ui/client/holodeck_engine.js`: the class
`HolodeckEngine` with its constructor, `init`, `updateRobotPose`, `animate`
and `onWindowResize`.

Conventions of the embedding.

* JavaScript numbers are elements of a linearly ordered field `α` (the
  theorems take `α := ℝ`).  `NaN` is modelled where it can enter, that is
  in the hand sample and in the Euler angles the sample is written to;
  `±Infinity` is outside the model.
* Arithmetic comes in two forms.  `updateRobotPose` and `animate` compute
  exactly; they serve the properties that rounding does not affect (which
  branch is taken, which fields are written, equalities at exactly
  representable values, bounds that rounding preserves).
  `updateRobotPoseRounded` and `animateRounded` round after every operation;
  with `roundDouble` they compute in binary64, and they serve the strict
  bounds and interval ends, which rounding does affect.
* `Math.PI`, `Math.sin`, `Date.now()`, `window.devicePixelRatio` and the
  sequence of values returned by successive `Math.random()` calls are host
  inputs and are parameters of the functions that read them.
* A method is a function on the engine state.  A method that can dereference
  a possibly absent object returns `Except JSError`.
* three.js objects are records of the fields the engine reads or writes.  The
  orientation and position the orbit controller gives the camera are not
  modelled; `controls.update()` and `renderer.render(..)` are counted.
-/

namespace Holodeck

/-! ## JavaScript values -/

/-- Errors raised by the modelled JavaScript fragment. -/
inductive JSError where
  | typeError
  deriving DecidableEq, Repr

/-- A JavaScript number that may be `NaN`. -/
inductive JSNum (α : Type) where
  | nan
  | num (v : α)
  deriving DecidableEq, Repr

namespace JSNum

variable {α : Type}

/-- Subtraction of JavaScript numbers: `NaN` is absorbing. -/
def sub [Sub α] : JSNum α → JSNum α → JSNum α
  | num a, num b => num (a - b)
  | _, _ => nan

/-- Multiplication of JavaScript numbers: `NaN` is absorbing. -/
def mul [Mul α] : JSNum α → JSNum α → JSNum α
  | num a, num b => num (a * b)
  | _, _ => nan

/-- Unary minus of a JavaScript number. -/
def neg [Neg α] : JSNum α → JSNum α
  | num a => num (-a)
  | nan => nan

/-- Truthiness of a number: `0` and `NaN` are falsy. -/
def truthy [DecidableEq α] [Zero α] : JSNum α → Bool
  | num a => decide (a ≠ 0)
  | nan => false

end JSNum

/-- The value read from the property `y` of a hand sample: `undefined` when
the object has no such property, a number otherwise. -/
inductive YVal (α : Type) where
  | undefined
  | number (n : JSNum α)
  deriving DecidableEq, Repr

namespace YVal

variable {α : Type}

/-- Truthiness of the value of `handData.y`. -/
def truthy [DecidableEq α] [Zero α] : YVal α → Bool
  | undefined => false
  | number n => n.truthy

/-- The numeric conversion applied by `1 - handData.y`: `undefined` becomes
`NaN`. -/
def toNumber : YVal α → JSNum α
  | undefined => JSNum.nan
  | number n => n

end YVal

/-- The argument `handData` of `updateRobotPose`: `null`, `undefined`, or an
object whose property `y` has the given value. -/
inductive Sample (α : Type) where
  | null
  | undefined
  | obj (y : YVal α)
  deriving DecidableEq, Repr

namespace Sample

variable {α : Type}

/-- Truthiness of `handData`: every object is truthy. -/
def truthy : Sample α → Bool
  | null => false
  | undefined => false
  | obj _ => true

/-- The property read `handData.y`; a `TypeError` on `null` and `undefined`. -/
def getY : Sample α → Except JSError (YVal α)
  | null => .error .typeError
  | undefined => .error .typeError
  | obj y => .ok y

end Sample

/-! ## Engine state -/

/-- A triple of coordinates (`THREE.Vector3`, `THREE.Euler`). -/
structure Vec3 (β : Type) where
  x : β
  y : β
  z : β
  deriving DecidableEq, Repr

/-- A `THREE.Mesh`: its position and its Euler rotation. -/
structure Mesh (α : Type) where
  position : Vec3 α
  rotation : Vec3 (JSNum α)
  deriving DecidableEq, Repr

/-- The robot `THREE.Group` with the three children that have no field of
their own on the engine. -/
structure Robot (α : Type) where
  position : Vec3 α
  base : Mesh α
  torso : Mesh α
  head : Mesh α
  deriving DecidableEq, Repr

/-- A child of the scene. The robot group is held by reference: its state is
in the engine. -/
inductive SceneNode (α : Type) where
  | ambientLight
  | pointLight (position : Vec3 α)
  | gridHelper
  | voxel (position : Vec3 α)
  | robot
  deriving DecidableEq, Repr

/-- The DOM container: the two dimensions the engine reads. -/
structure Container (α : Type) where
  clientWidth : α
  clientHeight : α
  deriving DecidableEq, Repr

/-- A `THREE.PerspectiveCamera`. `projectionAspect` is the aspect the
projection matrix was last computed from. -/
structure Camera (α : Type) where
  fov : α
  aspect : α
  near : α
  far : α
  projectionAspect : α
  position : Vec3 α
  deriving DecidableEq, Repr

/-- A `THREE.WebGLRenderer`: draw-surface size, pixel ratio, whether its
canvas is mounted, and the number of frames drawn. -/
structure Renderer (α : Type) where
  width : α
  height : α
  pixelRatio : α
  mounted : Bool
  rendered : Nat
  deriving DecidableEq, Repr

/-- The `OrbitControls` instance. -/
structure Controls where
  enableDamping : Bool
  updates : Nat
  deriving DecidableEq, Repr

/-- The state of a constructed `HolodeckEngine`, with the host counters it
advances. -/
structure Engine (α : Type) where
  container : Container α
  scene : List (SceneNode α)
  camera : Camera α
  renderer : Renderer α
  robot : Robot α
  leftArm : Mesh α
  rightArm : Mesh α
  controls : Controls
  /-- Number of `Math.random()` calls made. -/
  randomCalls : Nat
  /-- Number of `requestAnimationFrame` calls made. -/
  framesRequested : Nat
  /-- Number of `resize` listeners registered on the window. -/
  resizeListeners : Nat
  deriving DecidableEq, Repr

/-! ## Construction -/

/-- The loop `for (let i = lo; i < hi; i++) body(i)` over a state `σ`. -/
def forLoop {σ : Type} (i hi : Int) (body : Int → σ → σ) (st : σ) : σ :=
  if h : i < hi then forLoop (i + 1) hi body (body i st) else st
termination_by (hi - i).toNat
decreasing_by omega

/-- The part of the state the voxel loop works on. -/
structure Build (α : Type) where
  scene : List (SceneNode α)
  randomCalls : Nat

variable {α : Type} [LinearOrderedField α]

/-- A mesh as constructed: at the origin, unrotated. -/
def Mesh.new : Mesh α :=
  { position := ⟨0, 0, 0⟩, rotation := ⟨.num 0, .num 0, .num 0⟩ }

/-- Body of the inner loop of `init` (lines 37-41): one `Math.random()` call,
and a voxel at `(x * 1, 0.5, z * 1)` when the draw exceeds `0.8`. -/
def placeVoxel (draws : Nat → α) (x z : Int) (b : Build α) : Build α :=
  let r := draws b.randomCalls
  let b1 : Build α := { b with randomCalls := b.randomCalls + 1 }
  if r > 0.8 then
    { b1 with scene := b1.scene ++ [SceneNode.voxel ⟨(x : α) * 1, 0.5, (z : α) * 1⟩] }
  else b1

/-- The two nested loops of `init` (lines 35-43). -/
def voxelWorld (draws : Nat → α) (b : Build α) : Build α :=
  forLoop (-5) 5 (fun x bx => forLoop (-5) 5 (fun z bz => placeVoxel draws x z bz) bx) b

/-- The method `animate` at clock value `now = Date.now()`. -/
def animate (sin : α → α) (now : α) (s : Engine α) : Engine α :=
  let s1 := { s with framesRequested := s.framesRequested + 1 }
  let s2 := { s1 with
    robot := { s1.robot with
      position := { s1.robot.position with y := sin (now * 0.002) * 0.05 + 0.1 } } }
  let s3 := { s2 with controls := { s2.controls with updates := s2.controls.updates + 1 } }
  { s3 with renderer := { s3.renderer with rendered := s3.renderer.rendered + 1 } }

/-- The constructor followed by `init`. `dpr` is `window.devicePixelRatio`,
`draws` the values of the successive `Math.random()` calls, `now` the clock
value seen by the first `animate`. -/
def construct (sin : α → α) (container : Container α) (dpr : α) (draws : Nat → α)
    (now : α) : Engine α :=
  let aspect := container.clientWidth / container.clientHeight
  let camera : Camera α :=
    { fov := 75, aspect := aspect, near := 0.1, far := 1000, projectionAspect := aspect,
      position := ⟨0, 0, 0⟩ }
  let renderer : Renderer α :=
    { width := container.clientWidth, height := container.clientHeight, pixelRatio := dpr,
      mounted := true, rendered := 0 }
  let b0 : Build α :=
    { scene := [SceneNode.ambientLight, SceneNode.pointLight ⟨10, 10, 10⟩, SceneNode.gridHelper],
      randomCalls := 0 }
  let b := voxelWorld draws b0
  let robot : Robot α :=
    { position := ⟨0, 0, 0⟩,
      base := Mesh.new,
      torso := { (Mesh.new : Mesh α) with position := ⟨0, 0.5, 0⟩ },
      head := { (Mesh.new : Mesh α) with position := ⟨0, 1.1, 0⟩ } }
  let leftArm : Mesh α := { (Mesh.new : Mesh α) with position := ⟨-0.3, 0.8, 0⟩ }
  let rightArm : Mesh α := { (Mesh.new : Mesh α) with position := ⟨0.3, 0.8, 0⟩ }
  let s : Engine α :=
    { container := container,
      scene := b.scene ++ [SceneNode.robot],
      camera := { camera with position := ⟨0, 5, 5⟩ },
      renderer := renderer,
      robot := robot,
      leftArm := leftArm,
      rightArm := rightArm,
      controls := { enableDamping := true, updates := 0 },
      randomCalls := b.randomCalls,
      framesRequested := 0,
      resizeListeners := 0 }
  let s1 := animate sin now s
  { s1 with resizeListeners := s1.resizeListeners + 1 }

/-- Positions of the obstacle voxels among the children of a scene. -/
def obstacles (scene : List (SceneNode α)) : List (Vec3 α) :=
  scene.filterMap fun n =>
    match n with
    | SceneNode.voxel p => some p
    | _ => none

/-! ## Methods -/

/-- The guard `handData && handData.y` of `updateRobotPose`, as a boolean:
the right operand is read only when the left one is truthy. -/
def poseGuard (handData : Sample α) : Except JSError Bool :=
  if handData.truthy then do
    let y ← handData.getY
    pure y.truthy
  else pure false

/-- The method `updateRobotPose` (lines 92-100). -/
def updateRobotPose (PI : α) (handData : Sample α) (s : Engine α) :
    Except JSError (Engine α) := do
  if (← poseGuard handData) then
    let y ← handData.getY
    let angle :=
      JSNum.sub (JSNum.mul (JSNum.sub (JSNum.num 1) y.toNumber) (JSNum.num PI))
        (JSNum.num (PI / 2))
    pure { s with
      rightArm := { s.rightArm with
        rotation := { s.rightArm.rotation with x := JSNum.neg angle } } }
  else pure s

/-- The engine state that differs from `s` in the x-rotation of the right arm
only, which is `v`. -/
def withRightArmX (s : Engine α) (v : JSNum α) : Engine α :=
  { s with
    rightArm := { s.rightArm with
      rotation := { s.rightArm.rotation with x := v } } }

/-- The x-rotation of the right arm after one `updateRobotPose` call. -/
def rotationAfter (PI : α) (handData : Sample α) (s : Engine α) :
    Except JSError (JSNum α) :=
  (updateRobotPose PI handData s).map fun s1 => s1.rightArm.rotation.x

/-- The sample object with the numeric vertical coordinate `y`. -/
def Sample.ofY (y : α) : Sample α :=
  Sample.obj (YVal.number (JSNum.num y))

/-- The method `onWindowResize` (lines 112-116). -/
def onWindowResize (s : Engine α) : Engine α :=
  let s1 := { s with
    camera := { s.camera with aspect := s.container.clientWidth / s.container.clientHeight } }
  let s2 := { s1 with camera := { s1.camera with projectionAspect := s1.camera.aspect } }
  { s2 with
    renderer := { s2.renderer with
      width := s2.container.clientWidth, height := s2.container.clientHeight } }

/-- The host changes the size of the container and fires one `resize` event. -/
def resizeEvent (w h : α) (s : Engine α) : Engine α :=
  onWindowResize { s with container := { clientWidth := w, clientHeight := h } }

/-- What the host can do to a constructed engine between two observations:
deliver a hand sample, or run one animation frame at a clock value. -/
inductive Event (α : Type) where
  | pose (handData : Sample α)
  | frame (now : α)

/-- One event. -/
def step (PI : α) (sin : α → α) (e : Event α) (s : Engine α) : Except JSError (Engine α) :=
  match e with
  | Event.pose handData => updateRobotPose PI handData s
  | Event.frame now => pure (animate sin now s)

/-- A finite sequence of events, in order; stops at the first error. -/
def run (PI : α) (sin : α → α) : List (Event α) → Engine α → Except JSError (Engine α)
  | [], s => pure s
  | e :: es, s => do
    let s1 ← step PI sin e s
    run PI sin es s1

/-- A finite sequence of `updateRobotPose` calls. -/
def updatePoses (PI : α) : List (Sample α) → Engine α → Except JSError (Engine α)
  | [], s => pure s
  | h :: hs, s => do
    let s1 ← updateRobotPose PI h s
    updatePoses PI hs s1

/-- The same call of `updateRobotPose` repeated `n` times. -/
def updateRepeat (PI : α) (handData : Sample α) : Nat → Engine α → Except JSError (Engine α)
  | 0, s => pure s
  | n + 1, s => do
    let s1 ← updateRobotPose PI handData s
    updateRepeat PI handData n s1

/-- A sample the pose source is specified to deliver: absent, without `y`,
or with a real `y` in `[0, 1]`. -/
def Sample.InRange : Sample α → Prop
  | Sample.null => True
  | Sample.undefined => True
  | Sample.obj YVal.undefined => True
  | Sample.obj (YVal.number (JSNum.num y)) => 0 ≤ y ∧ y ≤ 1
  | Sample.obj (YVal.number JSNum.nan) => False

/-- An event of the sequences considered for the arm-range invariant. -/
def Event.InRange : Event α → Prop
  | Event.pose handData => handData.InRange
  | Event.frame _ => True

/-- The range property of the right arm: its x-rotation is a number between
`-PI/2` and `PI/2`. -/
def ArmInRange (PI : α) (s : Engine α) : Prop :=
  ∃ r : α, s.rightArm.rotation.x = JSNum.num r ∧ -(PI / 2) ≤ r ∧ r ≤ PI / 2

/-! ## Specification of the voxel loop -/

/-- The values `lo, lo + 1, .., hi - 1` a loop index takes. -/
def intRange (lo hi : Int) : List Int :=
  (List.range (hi - lo).toNat).map fun (k : Nat) => lo + (k : Int)

/-- The cells `(x, z)` for `x` in `xs` (outer) and `z` in `zs` (inner), in the
order the nested loops visit them. -/
def cellsOf (xs zs : List Int) : List (Int × Int) :=
  match xs with
  | [] => []
  | x :: xs1 => zs.map (fun z => (x, z)) ++ cellsOf xs1 zs

/-- Position of the voxel of a cell. -/
def voxelPos (c : Int × Int) : Vec3 α :=
  ⟨(c.1 : α) * 1, 0.5, (c.2 : α) * 1⟩

/-- The voxel positions selected among the cells `cs` when the cell at place
`j` of the list is decided by the draw number `k + j`. -/
def placed (draws : Nat → α) (k : Nat) (cs : List (Int × Int)) : List (Vec3 α) :=
  match cs with
  | [] => []
  | c :: cs1 => (if draws k > 0.8 then [voxelPos c] else []) ++ placed draws (k + 1) cs1

/-- The number of the draw that decides the cell `(x, z)` of the grid: cells
are numbered row by row from `(-5, -5)`. -/
def cellIndex (x z : Int) : Nat :=
  ((x + 5) * 10 + (z + 5)).toNat

/-! ## Double-precision arithmetic

The methods once more, with every arithmetic operation followed by the
rounding `rnd` of the number format, and every decimal literal rounded.  With
`rnd := roundDouble` this is IEEE 754 binary64 arithmetic in the default
rounding mode, the exponent range taken unbounded (no overflow to
`±Infinity`, no subnormal numbers); with `rnd := id` it is the exact
arithmetic of `updateRobotPose` and `animate` above. -/

section Rounding

variable {α : Type} [LinearOrderedField α] [FloorRing α]

/-- Rounding to the nearest integer, a tie going to the even neighbour. -/
def roundHalfEven (x : α) : Int :=
  let f := Int.floor x
  if x - (f : α) < 1 / 2 then f
  else if 1 / 2 < x - (f : α) then f + 1
  else if f % 2 = 0 then f else f + 1

/-- Rounding of a non-negative number to 53 significant bits. -/
def roundMag (x : α) : α :=
  (roundHalfEven (x / (2 : α) ^ (Int.log 2 x - 52)) : α) * (2 : α) ^ (Int.log 2 x - 52)

/-- Rounding to binary64. -/
def roundDouble (x : α) : α :=
  if 0 ≤ x then roundMag x else -roundMag (-x)

end Rounding

/-- The value of `Math.PI`: the binary64 number nearest to π. -/
def doublePI : α :=
  884279719003555 / 281474976710656

/-- The result of an arithmetic operation, rounded. -/
def JSNum.round (rnd : α → α) : JSNum α → JSNum α
  | JSNum.num a => JSNum.num (rnd a)
  | JSNum.nan => JSNum.nan

/-- The method `updateRobotPose` (lines 92-100) in rounded arithmetic. Unary
minus is exact. -/
def updateRobotPoseRounded (rnd : α → α) (PI : α) (handData : Sample α) (s : Engine α) :
    Except JSError (Engine α) := do
  if (← poseGuard handData) then
    let y ← handData.getY
    let oneMinusY := (JSNum.sub (JSNum.num 1) y.toNumber).round rnd
    let product := (JSNum.mul oneMinusY (JSNum.num PI)).round rnd
    let angle := (JSNum.sub product (JSNum.num (rnd (PI / 2)))).round rnd
    pure { s with
      rightArm := { s.rightArm with
        rotation := { s.rightArm.rotation with x := JSNum.neg angle } } }
  else pure s

/-- The x-rotation of the right arm after one `updateRobotPose` call in
rounded arithmetic. -/
def rotationAfterRounded (rnd : α → α) (PI : α) (handData : Sample α) (s : Engine α) :
    Except JSError (JSNum α) :=
  (updateRobotPoseRounded rnd PI handData s).map fun s1 => s1.rightArm.rotation.x

/-- The value `Math.sin(now * 0.002) * 0.05 + 0.1` of line 106 in rounded
arithmetic; `sin` is the host's `Math.sin`. -/
def idleOffsetRounded (rnd : α → α) (sin : α → α) (now : α) : α :=
  rnd (rnd (sin (rnd (now * rnd 0.002)) * rnd 0.05) + rnd 0.1)

/-- The method `animate` (lines 102-110) in rounded arithmetic. -/
def animateRounded (rnd : α → α) (sin : α → α) (now : α) (s : Engine α) : Engine α :=
  let s1 := { s with framesRequested := s.framesRequested + 1 }
  let s2 := { s1 with
    robot := { s1.robot with
      position := { s1.robot.position with y := idleOffsetRounded rnd sin now } } }
  let s3 := { s2 with controls := { s2.controls with updates := s2.controls.updates + 1 } }
  { s3 with renderer := { s3.renderer with rendered := s3.renderer.rendered + 1 } }

/-! ## Theorems -/

section PoseLemmas

/-- A sample object with a non-zero numeric `y` passes the guard and the
right arm receives `-((1 - y) * PI - PI / 2)`. -/
theorem updateRobotPose_ofY_ne_zero (PI y : α) (s : Engine α) (hy : y ≠ 0) :
    updateRobotPose PI (Sample.ofY y) s
      = .ok (withRightArmX s (JSNum.num (-((1 - y) * PI - PI / 2)))) := by
  simp [updateRobotPose, poseGuard, Sample.ofY, Sample.truthy, Sample.getY, YVal.truthy,
    JSNum.truthy, YVal.toNumber, JSNum.sub, JSNum.mul, JSNum.neg, withRightArmX, hy,
    bind, Except.bind, pure, Except.pure]

/-- A sample whose guard value is falsy leaves the state as it is. -/
theorem updateRobotPose_of_not_truthy (PI : α) (h : Sample α) (s : Engine α)
    (hh : ∀ y, h = Sample.ofY y → y = 0) : updateRobotPose PI h s = .ok s := by
  rcases h with _ | _ | (_ | (_ | y))
  all_goals try
    simp [updateRobotPose, poseGuard, Sample.truthy, Sample.getY, YVal.truthy,
      JSNum.truthy, bind, Except.bind, pure, Except.pure]
  intro hy
  exact absurd (hh y rfl) hy

/-- The rotation read back after a call with a non-zero numeric `y`. -/
theorem rotationAfter_ofY_ne_zero (PI y : α) (s : Engine α) (hy : y ≠ 0) :
    rotationAfter PI (Sample.ofY y) s = .ok (JSNum.num (-((1 - y) * PI - PI / 2))) := by
  simp [rotationAfter, updateRobotPose_ofY_ne_zero PI y s hy, withRightArmX, Except.map]

/-- The rotation read back after a call whose guard value is falsy. -/
theorem rotationAfter_of_not_truthy (PI : α) (h : Sample α) (s : Engine α)
    (hh : ∀ y, h = Sample.ofY y → y = 0) :
    rotationAfter PI h s = .ok s.rightArm.rotation.x := by
  simp [rotationAfter, updateRobotPose_of_not_truthy PI h s hh, Except.map]

/-- The right arm of a freshly constructed engine is unrotated about x. -/
theorem construct_rightArm_rotation_x (sin : α → α) (c : Container α) (dpr : α)
    (draws : Nat → α) (now : α) :
    (construct sin c dpr draws now).rightArm.rotation.x = JSNum.num 0 := by
  simp [construct, animate, Mesh.new]

/-- For every non-zero `y`, in particular on the half-open interval `(0, 1]`,
the pose mapping is the linear formula `-(1 - y) * π + π / 2`. -/
theorem rotationAfter_linear_of_ne_zero (y : ℝ) (s : Engine ℝ) (hy : y ≠ 0) :
    rotationAfter Real.pi (Sample.ofY y) s
      = .ok (JSNum.num (-(1 - y) * Real.pi + Real.pi / 2)) := by
  rw [rotationAfter_ofY_ne_zero Real.pi y s hy]
  congr 2
  ring

/-- Any sequence of `updateRobotPose` calls returns, and its result differs
from the initial state in the x-rotation of the right arm at most. -/
theorem updatePoses_frame (PI : α) (hs : List (Sample α)) (s : Engine α) :
    ∃ s1, updatePoses PI hs s = .ok s1 ∧ s1 = withRightArmX s s1.rightArm.rotation.x := by
  induction hs generalizing s with
  | nil => exact ⟨s, rfl, rfl⟩
  | cons h hs ih =>
    by_cases hh : ∀ y, h = Sample.ofY y → y = 0
    · obtain ⟨s1, h1, h2⟩ := ih s
      exact ⟨s1, by simp [updatePoses, updateRobotPose_of_not_truthy PI h s hh, h1, bind,
        Except.bind], h2⟩
    · push_neg at hh
      obtain ⟨y, rfl, hy⟩ := hh
      obtain ⟨s1, h1, h2⟩ := ih (withRightArmX s (JSNum.num (-((1 - y) * PI - PI / 2))))
      refine ⟨s1, by rw [updatePoses, updateRobotPose_ofY_ne_zero PI y s hy]; exact h1, ?_⟩
      rw [h2]
      simp [withRightArmX]

end PoseLemmas

section PoseClaims

/-- C1 (evaluation at the failing input): for the sample `{y: 0}` the call
returns the state unchanged, so on a freshly constructed engine the right
arm's x-rotation stays `0`, which is not the value `-(1 - 0) * π + π / 2`
of the pose formula at `y = 0`. -/
theorem updateRobotPose_y_zero_skipped :
    (∀ s : Engine ℝ, updateRobotPose Real.pi (Sample.ofY 0) s = .ok s) ∧
    rotationAfter Real.pi (Sample.ofY 0)
        (construct Real.sin ⟨800, 600⟩ 1 (fun _ => 0) 0) = .ok (JSNum.num 0) ∧
    (JSNum.num 0 : JSNum ℝ) ≠ JSNum.num (-(1 - 0) * Real.pi + Real.pi / 2) := by
  refine ⟨fun s => updateRobotPose_of_not_truthy _ _ s ?_, ?_, ?_⟩
  · intro y hy
    simp only [Sample.ofY, Sample.obj.injEq, YVal.number.injEq, JSNum.num.injEq] at hy
    exact hy.symm
  · rw [rotationAfter_of_not_truthy, construct_rightArm_rotation_x]
    intro y hy
    simp only [Sample.ofY, Sample.obj.injEq, YVal.number.injEq, JSNum.num.injEq] at hy
    exact hy.symm
  · intro h
    simp only [JSNum.num.injEq] at h
    have := Real.pi_pos
    linarith

/-- C2: for every engine state, `updateRobotPose` applied to `null`, to
`undefined` or to an object without `y` returns without error and returns
the state it was given (so the right arm's x-rotation is the one before the
call), and repeating the call `n` times gives the same state as repeating it
zero times. -/
theorem updateRobotPose_absent_noop (s : Engine ℝ) (n : Nat) :
    (updateRobotPose Real.pi Sample.null s = .ok s ∧
      updateRobotPose Real.pi Sample.undefined s = .ok s ∧
      updateRobotPose Real.pi (Sample.obj YVal.undefined) s = .ok s) ∧
    (rotationAfter Real.pi Sample.null s = .ok s.rightArm.rotation.x ∧
      rotationAfter Real.pi Sample.undefined s = .ok s.rightArm.rotation.x ∧
      rotationAfter Real.pi (Sample.obj YVal.undefined) s = .ok s.rightArm.rotation.x) ∧
    (updateRepeat Real.pi Sample.null n s = updateRepeat Real.pi Sample.null 0 s ∧
      updateRepeat Real.pi Sample.undefined n s = updateRepeat Real.pi Sample.undefined 0 s ∧
      updateRepeat Real.pi (Sample.obj YVal.undefined) n s
        = updateRepeat Real.pi (Sample.obj YVal.undefined) 0 s) := by
  have h1 : ∀ y : ℝ, Sample.null = Sample.ofY y → y = 0 := by intro y hy; cases hy
  have h2 : ∀ y : ℝ, Sample.undefined = Sample.ofY y → y = 0 := by intro y hy; cases hy
  have h3 : ∀ y : ℝ, Sample.obj YVal.undefined = Sample.ofY y → y = 0 := by
    intro y hy; cases hy
  have rep : ∀ (h : Sample ℝ), (∀ y : ℝ, h = Sample.ofY y → y = 0) →
      ∀ k, updateRepeat Real.pi h k s = updateRepeat Real.pi h 0 s := by
    intro h hh k
    induction k with
    | zero => rfl
    | succ k ih =>
      simp only [updateRepeat, updateRobotPose_of_not_truthy Real.pi h s hh, bind, Except.bind]
      simpa [updateRepeat] using ih
  exact ⟨⟨updateRobotPose_of_not_truthy _ _ s h1, updateRobotPose_of_not_truthy _ _ s h2,
      updateRobotPose_of_not_truthy _ _ s h3⟩,
    ⟨rotationAfter_of_not_truthy _ _ s h1, rotationAfter_of_not_truthy _ _ s h2,
      rotationAfter_of_not_truthy _ _ s h3⟩,
    ⟨rep _ h1 n, rep _ h2 n, rep _ h3 n⟩⟩

/-- C3: every finite sequence of `updateRobotPose` calls with arbitrary samples
(`null`, `undefined`, no `y`, `NaN`, any real `y`) returns a state whose left
arm is the left arm before the sequence, and which differs from the state
before the sequence in no field other than the x-rotation of the right arm. -/
theorem updatePoses_leftArm_static (hs : List (Sample ℝ)) (s : Engine ℝ) :
    ∃ s1, updatePoses Real.pi hs s = .ok s1 ∧
      s1.leftArm = s.leftArm ∧
      s1 = withRightArmX s s1.rightArm.rotation.x := by
  obtain ⟨s1, h1, h2⟩ := updatePoses_frame Real.pi hs s
  refine ⟨s1, h1, ?_, h2⟩
  rw [h2]
  rfl

/-- C4 (counterexample): on a freshly constructed engine the call with
`{y: 1}` leaves the right arm's x-rotation at `+π/2`, not at `-π/2`, so the
three pose values as stated do not hold together. -/
theorem pose_values_as_stated_fail :
    rotationAfter Real.pi (Sample.ofY 1) (construct Real.sin ⟨800, 600⟩ 1 (fun _ => 0) 0)
      = .ok (JSNum.num (Real.pi / 2)) ∧
    ¬ (rotationAfter Real.pi (Sample.ofY 0) (construct Real.sin ⟨800, 600⟩ 1 (fun _ => 0) 0)
        = .ok (JSNum.num (Real.pi / 2)) ∧
      rotationAfter Real.pi (Sample.ofY 1) (construct Real.sin ⟨800, 600⟩ 1 (fun _ => 0) 0)
        = .ok (JSNum.num (-(Real.pi / 2))) ∧
      rotationAfter Real.pi (Sample.ofY 0.5) (construct Real.sin ⟨800, 600⟩ 1 (fun _ => 0) 0)
        = .ok (JSNum.num 0)) := by
  have h1 : rotationAfter Real.pi (Sample.ofY 1)
      (construct Real.sin ⟨800, 600⟩ 1 (fun _ => 0) 0) = .ok (JSNum.num (Real.pi / 2)) := by
    rw [rotationAfter_ofY_ne_zero Real.pi 1 _ one_ne_zero]
    congr 2
    ring
  refine ⟨h1, ?_⟩
  rintro ⟨-, h, -⟩
  rw [h1] at h
  simp only [Except.ok.injEq, JSNum.num.injEq] at h
  have := Real.pi_pos
  linarith

/-- C4 (amended): from every engine state, after `updateRobotPose({y: 1})` the
right arm's x-rotation is `+π/2`, and after `updateRobotPose({y: 0.5})` it
is `0`. -/
theorem pose_values_one_and_half (s : Engine ℝ) :
    rotationAfter Real.pi (Sample.ofY 1) s = .ok (JSNum.num (Real.pi / 2)) ∧
    rotationAfter Real.pi (Sample.ofY 0.5) s = .ok (JSNum.num 0) := by
  constructor
  · rw [rotationAfter_ofY_ne_zero Real.pi 1 s one_ne_zero]
    congr 2
    ring
  · rw [rotationAfter_ofY_ne_zero Real.pi 0.5 s (by norm_num)]
    congr 2
    ring

/-- C10: the guard is a truthiness test. For every sample that is not an
object with a non-zero numeric `y` (in particular `{y: 0}` and `{y: NaN}`,
as well as `null`, `undefined` and `{}`) the call returns the state
unchanged; for every non-zero real `y` it returns the state with the right
arm's x-rotation overwritten by `-((1 - y) * π - π / 2)`. -/
theorem updateRobotPose_iff_truthy (s : Engine ℝ) :
    (∀ h : Sample ℝ, (∀ y, h = Sample.ofY y → y = 0) →
      updateRobotPose Real.pi h s = .ok s) ∧
    updateRobotPose Real.pi (Sample.ofY 0) s = .ok s ∧
    updateRobotPose Real.pi (Sample.obj (YVal.number JSNum.nan)) s = .ok s ∧
    updateRobotPose Real.pi (Sample.obj (YVal.number JSNum.nan)) s
      = updateRobotPose Real.pi Sample.undefined s ∧
    updateRobotPose Real.pi (Sample.ofY 0) s = updateRobotPose Real.pi Sample.undefined s ∧
    (∀ y : ℝ, y ≠ 0 →
      updateRobotPose Real.pi (Sample.ofY y) s
        = .ok (withRightArmX s (JSNum.num (-((1 - y) * Real.pi - Real.pi / 2))))) := by
  have h0 : ∀ y : ℝ, Sample.ofY (0 : ℝ) = Sample.ofY y → y = 0 := by
    intro y hy
    simp only [Sample.ofY, Sample.obj.injEq, YVal.number.injEq, JSNum.num.injEq] at hy
    exact hy.symm
  have hn : ∀ y : ℝ, Sample.obj (YVal.number JSNum.nan) = Sample.ofY y → y = 0 := by
    intro y hy
    simp [Sample.ofY] at hy
  have hu : ∀ y : ℝ, Sample.undefined = Sample.ofY y → y = 0 := by intro y hy; cases hy
  refine ⟨fun h hh => updateRobotPose_of_not_truthy _ h s hh,
    updateRobotPose_of_not_truthy _ _ s h0, updateRobotPose_of_not_truthy _ _ s hn, ?_, ?_,
    fun y hy => updateRobotPose_ofY_ne_zero _ y s hy⟩
  · rw [updateRobotPose_of_not_truthy _ _ s hn, updateRobotPose_of_not_truthy _ _ s hu]
  · rw [updateRobotPose_of_not_truthy _ _ s h0, updateRobotPose_of_not_truthy _ _ s hu]

/-- C10 (witness): the theorem on a freshly constructed engine, at the sample
`{y: 0}` for the unchanged case and at `y = 2` for the overwriting case. -/
theorem updateRobotPose_iff_truthy_witness :
    (∀ y : ℝ, Sample.ofY (0 : ℝ) = Sample.ofY y → y = 0) ∧
    updateRobotPose Real.pi (Sample.ofY 0) (construct Real.sin ⟨800, 600⟩ 1 (fun _ => 0) 0)
      = .ok (construct Real.sin ⟨800, 600⟩ 1 (fun _ => 0) 0) ∧
    (2 : ℝ) ≠ 0 ∧
    updateRobotPose Real.pi (Sample.ofY 2) (construct Real.sin ⟨800, 600⟩ 1 (fun _ => 0) 0)
      = .ok (withRightArmX (construct Real.sin ⟨800, 600⟩ 1 (fun _ => 0) 0)
          (JSNum.num (-((1 - 2) * Real.pi - Real.pi / 2)))) :=
  have h0 : ∀ y : ℝ, Sample.ofY (0 : ℝ) = Sample.ofY y → y = 0 := by
    intro y hy
    simp only [Sample.ofY, Sample.obj.injEq, YVal.number.injEq, JSNum.num.injEq] at hy
    exact hy.symm
  ⟨h0, (updateRobotPose_iff_truthy _).1 _ h0, by norm_num,
    (updateRobotPose_iff_truthy _).2.2.2.2.2 2 (by norm_num)⟩

end PoseClaims

section FrameLemmas

/-- One animation frame leaves both arms as they are. -/
theorem animate_arms (sin : α → α) (now : α) (s : Engine α) :
    (animate sin now s).leftArm = s.leftArm ∧ (animate sin now s).rightArm = s.rightArm :=
  ⟨rfl, rfl⟩

/-- One event with an in-range sample returns and keeps the range property. -/
theorem step_armInRange (e : Event ℝ) (s : Engine ℝ) (he : e.InRange) (hs : ArmInRange Real.pi s) :
    ∃ s1, step Real.pi Real.sin e s = .ok s1 ∧ ArmInRange Real.pi s1 := by
  have hpi := Real.pi_pos
  cases e with
  | frame now => exact ⟨animate Real.sin now s, rfl, hs⟩
  | pose h =>
    by_cases hh : ∀ y, h = Sample.ofY y → y = 0
    · exact ⟨s, updateRobotPose_of_not_truthy _ h s hh, hs⟩
    · push_neg at hh
      obtain ⟨y, rfl, hy⟩ := hh
      have hr : 0 ≤ y ∧ y ≤ 1 := he
      refine ⟨_, updateRobotPose_ofY_ne_zero _ y s hy, _, rfl, ?_, ?_⟩
      · nlinarith [hr.1, hr.2]
      · nlinarith [hr.1, hr.2]

end FrameLemmas

section FrameClaims

/-- C5: starting from the freshly constructed engine, every finite sequence
of `updateRobotPose` calls whose samples are absent, without `y`, or have a
real `y` in `[0, 1]`, interleaved with any animation frames, returns a state
whose right-arm x-rotation is a number in `[-π/2, π/2]`. -/
theorem run_rightArm_in_range (c : Container ℝ) (dpr : ℝ) (draws : Nat → ℝ) (now : ℝ)
    (es : List (Event ℝ)) (hes : ∀ e ∈ es, e.InRange) :
    ∃ s1 r, run Real.pi Real.sin es (construct Real.sin c dpr draws now) = .ok s1 ∧
      s1.rightArm.rotation.x = JSNum.num r ∧ -(Real.pi / 2) ≤ r ∧ r ≤ Real.pi / 2 := by
  have key : ∀ (l : List (Event ℝ)) (s : Engine ℝ), (∀ e ∈ l, e.InRange) →
      ArmInRange Real.pi s → ∃ s1, run Real.pi Real.sin l s = .ok s1 ∧ ArmInRange Real.pi s1 := by
    intro l
    induction l with
    | nil => intro s _ hs; exact ⟨s, rfl, hs⟩
    | cons e l ih =>
      intro s hl hs
      obtain ⟨s1, h1, h2⟩ := step_armInRange e s (hl e (List.mem_cons_self _ _)) hs
      obtain ⟨s2, h3, h4⟩ := ih s1 (fun e1 h => hl e1 (List.mem_cons_of_mem _ h)) h2
      refine ⟨s2, ?_, h4⟩
      rw [run, h1]
      exact h3
  have h0 : ArmInRange Real.pi (construct Real.sin c dpr draws now) := by
    have hpi := Real.pi_pos
    exact ⟨0, construct_rightArm_rotation_x _ _ _ _ _, by linarith, by linarith⟩
  obtain ⟨s1, h1, r, h2, h3, h4⟩ := key es _ hes h0
  exact ⟨s1, r, h1, h2, h3, h4⟩

/-- C5 (witness): the theorem on the sequence `{y: 1}`, a frame at 16 ms,
`null`, `{y: 0}`, `{y: 0.5}`, `{}`, a frame at 32 ms. -/
theorem run_rightArm_in_range_witness :
    (∀ e ∈ [Event.pose (Sample.ofY (1 : ℝ)), Event.frame 16, Event.pose Sample.null,
        Event.pose (Sample.ofY 0), Event.pose (Sample.ofY 0.5),
        Event.pose (Sample.obj YVal.undefined), Event.frame 32], e.InRange) ∧
    ∃ s1 r, run Real.pi Real.sin
        [Event.pose (Sample.ofY (1 : ℝ)), Event.frame 16, Event.pose Sample.null,
          Event.pose (Sample.ofY 0), Event.pose (Sample.ofY 0.5),
          Event.pose (Sample.obj YVal.undefined), Event.frame 32]
        (construct Real.sin ⟨800, 600⟩ 1 (fun _ => 0) 0) = .ok s1 ∧
      s1.rightArm.rotation.x = JSNum.num r ∧ -(Real.pi / 2) ≤ r ∧ r ≤ Real.pi / 2 :=
  have h : ∀ e ∈ [Event.pose (Sample.ofY (1 : ℝ)), Event.frame 16, Event.pose Sample.null,
      Event.pose (Sample.ofY 0), Event.pose (Sample.ofY 0.5),
      Event.pose (Sample.obj YVal.undefined), Event.frame 32], e.InRange := by
    intro e he
    simp only [List.mem_cons, List.mem_singleton, List.not_mem_nil, or_false] at he
    rcases he with rfl | rfl | rfl | rfl | rfl | rfl | rfl <;>
      norm_num [Event.InRange, Sample.InRange, Sample.ofY]
  ⟨h, run_rightArm_in_range ⟨800, 600⟩ 1 (fun _ => 0) 0 _ h⟩

/-- C9: for every engine whose container has size `(w, h)` with `h > 0`, one
`onWindowResize` call sets the camera aspect to the quotient `w / h`,
refreshes the projection from it, sets the draw-surface size to `(w, h)`,
and changes neither the robot, nor the arms, nor the scene. -/
theorem onWindowResize_effect (s : Engine ℝ) (w h : ℝ) (hc : s.container = ⟨w, h⟩)
    (hh : 0 < h) :
    (onWindowResize s).camera.aspect = w / h ∧
    (onWindowResize s).camera.aspect * h = w ∧
    (onWindowResize s).camera.projectionAspect = w / h ∧
    (onWindowResize s).renderer.width = w ∧
    (onWindowResize s).renderer.height = h ∧
    (onWindowResize s).robot = s.robot ∧
    (onWindowResize s).leftArm = s.leftArm ∧
    (onWindowResize s).rightArm = s.rightArm ∧
    (onWindowResize s).scene = s.scene := by
  have e1 : (onWindowResize s).camera.aspect = w / h := by
    show s.container.clientWidth / s.container.clientHeight = w / h
    rw [hc]
  have e2 : (onWindowResize s).renderer.width = w := by
    show s.container.clientWidth = w
    rw [hc]
  have e3 : (onWindowResize s).renderer.height = h := by
    show s.container.clientHeight = h
    rw [hc]
  refine ⟨e1, ?_, e1, e2, e3, rfl, rfl, rfl, rfl⟩
  rw [e1]
  field_simp

/-- C9 (witness): an engine constructed in a container of 800 by 600, whose
container then takes the size 400 by 300, has after one resize event the
camera aspect `400 / 300` and the draw-surface size `(400, 300)`. -/
theorem onWindowResize_effect_witness :
    (0 : ℝ) < 300 ∧
    (construct Real.sin ⟨800, 600⟩ 1 (fun _ => 0) 0).camera.aspect = 800 / 600 ∧
    (construct Real.sin ⟨800, 600⟩ 1 (fun _ => 0) 0).renderer.width = 800 ∧
    (construct Real.sin ⟨800, 600⟩ 1 (fun _ => 0) 0).renderer.height = 600 ∧
    (resizeEvent 400 300 (construct Real.sin ⟨800, 600⟩ 1 (fun _ => 0) 0)).camera.aspect
      = 400 / 300 ∧
    (resizeEvent 400 300 (construct Real.sin ⟨800, 600⟩ 1 (fun _ => 0) 0)).renderer.width
      = 400 ∧
    (resizeEvent 400 300 (construct Real.sin ⟨800, 600⟩ 1 (fun _ => 0) 0)).renderer.height
      = 300 :=
  have h := onWindowResize_effect
    { construct Real.sin ⟨800, 600⟩ 1 (fun _ => 0) 0 with
      container := { clientWidth := 400, clientHeight := 300 } } 400 300 rfl (by norm_num)
  ⟨by norm_num, rfl, rfl, rfl, h.1, h.2.2.2.1, h.2.2.2.2.1⟩

end FrameClaims

section VoxelLemmas

/-- A loop whose test holds runs its body once and continues from `i + 1`. -/
theorem intRange_cons (lo hi : Int) (h : lo < hi) :
    intRange lo hi = lo :: intRange (lo + 1) hi := by
  obtain ⟨n, hn⟩ : ∃ n : Nat, (hi - lo).toNat = n + 1 := ⟨(hi - lo).toNat - 1, by omega⟩
  have hn1 : (hi - (lo + 1)).toNat = n := by omega
  unfold intRange
  rw [hn, hn1, List.range_succ_eq_map, List.map_cons, List.map_map]
  congr 1
  · simp
  · apply List.map_congr_left
    intro k _
    simp only [Function.comp_apply, Nat.cast_succ]
    ring

/-- A loop whose test fails visits nothing. -/
theorem intRange_nil (lo hi : Int) (h : ¬ lo < hi) : intRange lo hi = [] := by
  have : (hi - lo).toNat = 0 := by omega
  simp [intRange, this]

/-- The `for` loop is the left fold of its body over the index values. -/
theorem forLoop_eq_foldl {σ : Type} (hi : Int) (body : Int → σ → σ) :
    ∀ (n : Nat) (lo : Int) (st : σ), (hi - lo).toNat = n →
      forLoop lo hi body st = (intRange lo hi).foldl (fun acc i => body i acc) st := by
  intro n
  induction n with
  | zero =>
    intro lo st hn
    have h : ¬ lo < hi := by omega
    rw [forLoop, dif_neg h, intRange_nil lo hi h]
    rfl
  | succ n ih =>
    intro lo st hn
    have h : lo < hi := by omega
    rw [forLoop, dif_pos h, intRange_cons lo hi h, ih (lo + 1) (body lo st) (by omega)]
    rfl

/-- The selection over a concatenation of cell lists. -/
theorem placed_append (draws : Nat → α) (cs ds : List (Int × Int)) :
    ∀ k, placed draws k (cs ++ ds) = placed draws k cs ++ placed draws (k + cs.length) ds := by
  induction cs with
  | nil => intro k; simp [placed]
  | cons c cs ih =>
    intro k
    have e : k + (c :: cs).length = k + 1 + cs.length := by
      simp only [List.length_cons]
      omega
    show (if draws k > 0.8 then [voxelPos c] else []) ++ placed draws (k + 1) (cs ++ ds)
      = ((if draws k > 0.8 then [voxelPos c] else []) ++ placed draws (k + 1) cs)
        ++ placed draws (k + (c :: cs).length) ds
    rw [ih (k + 1), e, List.append_assoc]

/-- The inner loop over the index values `zs`, in row `x`. -/
theorem foldl_placeVoxel (draws : Nat → α) (x : Int) (zs : List Int) :
    ∀ b : Build α, zs.foldl (fun acc z => placeVoxel draws x z acc) b
      = { scene := b.scene
            ++ (placed draws b.randomCalls (zs.map fun z => (x, z))).map SceneNode.voxel,
          randomCalls := b.randomCalls + zs.length } := by
  induction zs with
  | nil => intro b; simp [placed]
  | cons z zs ih =>
    intro b
    rw [List.foldl_cons, ih]
    by_cases hd : draws b.randomCalls > 0.8
    · simp only [placeVoxel, hd, if_true, List.map_cons, placed, List.length_cons, voxelPos,
        List.append_assoc, List.singleton_append, List.cons_append, List.nil_append]
      congr 1
      omega
    · simp only [placeVoxel, hd, if_false, List.map_cons, placed, List.length_cons,
        List.nil_append]
      congr 1
      omega

/-- The two nested loops over the index values `xs` and `zs`. -/
theorem foldl_foldl_placeVoxel (draws : Nat → α) (zs xs : List Int) :
    ∀ b : Build α,
      xs.foldl (fun acc x => zs.foldl (fun acc1 z => placeVoxel draws x z acc1) acc) b
      = { scene := b.scene
            ++ (placed draws b.randomCalls (cellsOf xs zs)).map SceneNode.voxel,
          randomCalls := b.randomCalls + (cellsOf xs zs).length } := by
  induction xs with
  | nil => intro b; simp [placed, cellsOf]
  | cons x xs ih =>
    intro b
    rw [List.foldl_cons, foldl_placeVoxel, ih]
    simp only [cellsOf, placed_append, List.map_append, List.append_assoc, List.length_append,
      List.length_map, Nat.add_assoc]

/-- The voxel loops of `init`, in terms of the selection `placed`. -/
theorem voxelWorld_eq (draws : Nat → α) (b : Build α) :
    voxelWorld draws b
      = { scene := b.scene
            ++ (placed draws b.randomCalls
                (cellsOf (intRange (-5) 5) (intRange (-5) 5))).map SceneNode.voxel,
          randomCalls := b.randomCalls
            + (cellsOf (intRange (-5) 5) (intRange (-5) 5)).length } := by
  unfold voxelWorld
  rw [forLoop_eq_foldl 5 _ _ (-5) b rfl]
  have inner : ∀ (x : Int) (bx : Build α),
      forLoop (-5) 5 (fun z bz => placeVoxel draws x z bz) bx
      = (intRange (-5) 5).foldl (fun acc z => placeVoxel draws x z acc) bx := by
    intro x bx
    exact forLoop_eq_foldl 5 _ _ (-5) bx rfl
  simp only [inner]
  exact foldl_foldl_placeVoxel draws (intRange (-5) 5) (intRange (-5) 5) b

/-- The cells of the grid, listed by draw number. -/
theorem cells_eq :
    cellsOf (intRange (-5) 5) (intRange (-5) 5)
      = (List.range 100).map fun j : Nat => (((j / 10 : Nat) : Int) - 5, ((j % 10 : Nat) : Int) - 5) := by
  decide

/-- A position is selected exactly when it is the voxel of a cell of the
list whose draw exceeds `0.8`. -/
theorem mem_placed (draws : Nat → α) (p : Vec3 α) (cs : List (Int × Int)) :
    ∀ k, p ∈ placed draws k cs ↔
      ∃ j c, cs[j]? = some c ∧ draws (k + j) > 0.8 ∧ p = voxelPos c := by
  induction cs with
  | nil => intro k; simp [placed]
  | cons c cs ih =>
    intro k
    rw [placed, List.mem_append, ih (k + 1)]
    constructor
    · rintro (h | ⟨j, d, hj, hd, hp⟩)
      · by_cases hd : draws k > 0.8
        · rw [if_pos hd, List.mem_singleton] at h
          exact ⟨0, c, List.getElem?_cons_zero, hd, h⟩
        · rw [if_neg hd] at h
          cases h
      · refine ⟨j + 1, d, ?_, ?_, hp⟩
        · rw [List.getElem?_cons_succ]
          exact hj
        · have e : k + (j + 1) = k + 1 + j := by omega
          rw [e]
          exact hd
    · rintro ⟨j, d, hj, hd, hp⟩
      cases j with
      | zero =>
        left
        rw [List.getElem?_cons_zero, Option.some.injEq] at hj
        rw [Nat.add_zero] at hd
        rw [if_pos hd, List.mem_singleton, hj]
        exact hp
      | succ j =>
        right
        rw [List.getElem?_cons_succ] at hj
        refine ⟨j, d, hj, ?_, hp⟩
        have e : k + 1 + j = k + (j + 1) := by omega
        rw [e]
        exact hd

/-- The selected positions are a sublist of the voxel positions of the cells. -/
theorem placed_sublist (draws : Nat → α) (cs : List (Int × Int)) :
    ∀ k, List.Sublist (placed draws k cs) (cs.map voxelPos) := by
  induction cs with
  | nil => intro k; simp [placed]
  | cons c cs ih =>
    intro k
    rw [placed, List.map_cons]
    by_cases hd : draws k > 0.8
    · rw [if_pos hd]
      exact (ih (k + 1)).cons₂ _
    · rw [if_neg hd]
      exact (ih (k + 1)).cons _

/-- Distinct cells have distinct voxel positions. -/
theorem voxelPos_injective : Function.Injective (voxelPos : Int × Int → Vec3 α) := by
  rintro ⟨x1, z1⟩ ⟨x2, z2⟩ h
  simp only [voxelPos, mul_one, Vec3.mk.injEq, Int.cast_inj, true_and] at h
  rw [h.1, h.2]

/-- The obstacles of a list of voxels are their positions. -/
theorem obstacles_map_voxel {β : Type} (ps : List (Vec3 β)) :
    obstacles (ps.map SceneNode.voxel) = ps := by
  induction ps with
  | nil => rfl
  | cons p ps ih =>
    rw [List.map_cons]
    show p :: obstacles (ps.map SceneNode.voxel) = p :: ps
    rw [ih]

/-- The scene and the draw counter of a constructed engine. -/
theorem construct_scene (sin : α → α) (c : Container α) (dpr : α) (draws : Nat → α)
    (now : α) :
    (construct sin c dpr draws now).scene
      = [SceneNode.ambientLight, SceneNode.pointLight ⟨10, 10, 10⟩, SceneNode.gridHelper]
        ++ (placed draws 0 (cellsOf (intRange (-5) 5) (intRange (-5) 5))).map SceneNode.voxel
        ++ [SceneNode.robot] ∧
    (construct sin c dpr draws now).randomCalls
      = (cellsOf (intRange (-5) 5) (intRange (-5) 5)).length := by
  constructor
  · show (voxelWorld draws _).scene ++ [SceneNode.robot] = _
    rw [voxelWorld_eq]
  · show (voxelWorld draws _).randomCalls = _
    rw [voxelWorld_eq]
    exact Nat.zero_add _

/-- The obstacles of a constructed engine are the selected positions. -/
theorem construct_obstacles (sin : α → α) (c : Container α) (dpr : α) (draws : Nat → α)
    (now : α) :
    obstacles (construct sin c dpr draws now).scene
      = placed draws 0 (cellsOf (intRange (-5) 5) (intRange (-5) 5)) := by
  rw [(construct_scene sin c dpr draws now).1]
  unfold obstacles
  rw [List.filterMap_append, List.filterMap_append]
  have h := obstacles_map_voxel (placed draws 0 (cellsOf (intRange (-5) 5) (intRange (-5) 5)))
  unfold obstacles at h
  rw [h]
  simp

/-- The cell at place `j` of the grid. -/
theorem cells_getElem? (j : Nat) (c : Int × Int) :
    (cellsOf (intRange (-5) 5) (intRange (-5) 5))[j]? = some c ↔
      j < 100 ∧ c = (((j / 10 : Nat) : Int) - 5, ((j % 10 : Nat) : Int) - 5) := by
  rw [cells_eq, List.getElem?_map]
  by_cases hj : j < 100
  · rw [List.getElem?_range hj]
    simp only [Option.map_some', Option.some.injEq, hj, true_and]
    exact eq_comm
  · rw [List.getElem?_eq_none (by simpa using hj)]
    simp [hj]

end VoxelLemmas

section VoxelClaims

/-- C8: with the random source an arbitrary sequence `draws`, construction
makes exactly 100 `Math.random()` calls, one per cell of the grid
`-5 ≤ x < 5`, `-5 ≤ z < 5` (the cell `(x, z)` is decided by the draw number
`cellIndex x z`, and `cellIndex` is a bijection from the grid to the
numbers below 100); the scene holds, besides the three fixed nodes and the
robot, exactly the obstacle voxels; a position holds an obstacle exactly
when it is `(x, 0.5, z)` for a cell whose draw exceeds `0.8`; no position
holds two obstacles, and there are at most 100 obstacles. -/
theorem construct_obstacle_grid (c : Container ℝ) (dpr : ℝ) (draws : Nat → ℝ) (now : ℝ) :
    (construct Real.sin c dpr draws now).randomCalls = 100 ∧
    (∀ k : Nat, k < 100 ↔
      ∃ x z : Int, -5 ≤ x ∧ x < 5 ∧ -5 ≤ z ∧ z < 5 ∧ cellIndex x z = k) ∧
    (∀ x z x1 z1 : Int, -5 ≤ x → x < 5 → -5 ≤ z → z < 5 → -5 ≤ x1 → x1 < 5 → -5 ≤ z1 →
      z1 < 5 → cellIndex x z = cellIndex x1 z1 → x = x1 ∧ z = z1) ∧
    (construct Real.sin c dpr draws now).scene
      = [SceneNode.ambientLight, SceneNode.pointLight ⟨10, 10, 10⟩, SceneNode.gridHelper]
        ++ (obstacles (construct Real.sin c dpr draws now).scene).map SceneNode.voxel
        ++ [SceneNode.robot] ∧
    (∀ p : Vec3 ℝ, p ∈ obstacles (construct Real.sin c dpr draws now).scene ↔
      ∃ x z : Int, -5 ≤ x ∧ x < 5 ∧ -5 ≤ z ∧ z < 5 ∧ draws (cellIndex x z) > 0.8 ∧
        p = ⟨(x : ℝ), 0.5, (z : ℝ)⟩) ∧
    (obstacles (construct Real.sin c dpr draws now).scene).Nodup ∧
    (obstacles (construct Real.sin c dpr draws now).scene).length ≤ 100 := by
  have hlen : (cellsOf (intRange (-5) 5) (intRange (-5) 5)).length = 100 := by
    rw [cells_eq]
    simp
  have hsub := placed_sublist draws (cellsOf (intRange (-5) 5) (intRange (-5) 5)) 0
  refine ⟨?_, ?_, ?_, ?_, ?_, ?_, ?_⟩
  · rw [(construct_scene Real.sin c dpr draws now).2, hlen]
  · intro k
    constructor
    · intro hk
      refine ⟨((k / 10 : Nat) : Int) - 5, ((k % 10 : Nat) : Int) - 5, ?_, ?_, ?_, ?_, ?_⟩ <;>
        first
          | omega
          | (unfold cellIndex; omega)
    · rintro ⟨x, z, h1, h2, h3, h4, rfl⟩
      unfold cellIndex
      omega
  · intro x z x1 z1 h1 h2 h3 h4 h5 h6 h7 h8 he
    unfold cellIndex at he
    constructor <;> omega
  · rw [construct_obstacles]
    exact (construct_scene Real.sin c dpr draws now).1
  · intro p
    rw [construct_obstacles, mem_placed]
    constructor
    · rintro ⟨j, d, hj, hd, hp⟩
      rw [cells_getElem?] at hj
      obtain ⟨hj, rfl⟩ := hj
      refine ⟨((j / 10 : Nat) : Int) - 5, ((j % 10 : Nat) : Int) - 5, by omega, by omega,
        by omega, by omega, ?_, ?_⟩
      · have e : cellIndex (((j / 10 : Nat) : Int) - 5) (((j % 10 : Nat) : Int) - 5) = 0 + j := by
          unfold cellIndex
          omega
        rw [e]
        exact hd
      · rw [hp]
        simp [voxelPos]
    · rintro ⟨x, z, h1, h2, h3, h4, hd, rfl⟩
      refine ⟨cellIndex x z, (x, z), ?_, ?_, ?_⟩
      · rw [cells_getElem?]
        unfold cellIndex
        refine ⟨by omega, ?_⟩
        ext <;> simp only <;> omega
      · rw [Nat.zero_add]
        exact hd
      · simp [voxelPos]
  · rw [construct_obstacles]
    refine List.Nodup.sublist hsub (List.Nodup.map voxelPos_injective ?_)
    rw [cells_eq]
    refine List.Nodup.map ?_ (List.nodup_range 100)
    intro a b hab
    simp only [Prod.mk.injEq] at hab
    omega
  · rw [construct_obstacles]
    have := hsub.length_le
    rw [List.length_map, hlen] at this
    exact this

end VoxelClaims

section RoundingLemmas

variable {α : Type} [LinearOrderedField α] [FloorRing α]

theorem roundHalfEven_cases (x : α) :
    (roundHalfEven x = Int.floor x ∧ x - (Int.floor x : α) ≤ 1 / 2) ∨
    (roundHalfEven x = Int.floor x + 1 ∧ 1 / 2 ≤ x - (Int.floor x : α)) := by
  unfold roundHalfEven
  by_cases h1 : x - ((Int.floor x : Int) : α) < 1 / 2
  · left
    simp only [h1, if_true, true_and]
    exact le_of_lt h1
  · by_cases h2 : 1 / 2 < x - ((Int.floor x : Int) : α)
    · right
      simp only [h1, h2, if_true, if_false, true_and]
      exact le_of_lt h2
    · have he : x - ((Int.floor x : Int) : α) = 1 / 2 := le_antisymm (not_lt.mp h2) (not_lt.mp h1)
      by_cases h3 : Int.floor x % 2 = 0
      · left
        simp only [h1, h2, h3, if_true, if_false, true_and]
        exact le_of_eq he
      · right
        simp only [h1, h2, h3, if_false, true_and]
        exact le_of_eq he.symm

/-- Evaluation below the half. -/
theorem roundHalfEven_of_lt_half (x : α) (f : Int) (h1 : (f : α) ≤ x) (h2 : x - (f : α) < 1 / 2) :
    roundHalfEven x = f := by
  have hf : Int.floor x = f := by
    rw [Int.floor_eq_iff]
    constructor
    · exact h1
    · linarith
  unfold roundHalfEven
  simp only [hf, h2, if_true]

/-- Evaluation above the half. -/
theorem roundHalfEven_of_half_lt (x : α) (f : Int) (h1 : 1 / 2 < x - (f : α)) (h2 : x < (f : α) + 1) :
    roundHalfEven x = f + 1 := by
  have hf : Int.floor x = f := by
    rw [Int.floor_eq_iff]
    constructor
    · linarith
    · exact h2
  have h3 : ¬ x - (f : α) < 1 / 2 := not_lt.mpr (le_of_lt h1)
  unfold roundHalfEven
  simp only [hf, h1, h3, if_true, if_false]

/-- Evaluation at a tie. -/
theorem roundHalfEven_of_tie (x : α) (f : Int) (h1 : x = (f : α) + 1 / 2) :
    roundHalfEven x = if f % 2 = 0 then f else f + 1 := by
  have hf : Int.floor x = f := by
    rw [Int.floor_eq_iff]
    constructor <;> linarith
  have h2 : ¬ x - (f : α) < 1 / 2 := by rw [h1]; simp
  have h3 : ¬ 1 / 2 < x - (f : α) := by rw [h1]; simp
  unfold roundHalfEven
  simp only [hf, h2, h3, if_false]

theorem roundHalfEven_intCast (n : Int) : roundHalfEven (n : α) = n :=
  roundHalfEven_of_lt_half _ n le_rfl (by simp)

theorem roundHalfEven_mono {x y : α} (h : x ≤ y) : roundHalfEven x ≤ roundHalfEven y := by
  have hfl : Int.floor x ≤ Int.floor y := Int.floor_mono h
  rcases lt_or_eq_of_le hfl with hlt | heq
  · have hx : roundHalfEven x ≤ Int.floor x + 1 := by
      rcases roundHalfEven_cases x with ⟨e, _⟩ | ⟨e, _⟩ <;> omega
    have hy : Int.floor y ≤ roundHalfEven y := by
      rcases roundHalfEven_cases y with ⟨e, _⟩ | ⟨e, _⟩ <;> omega
    omega
  · unfold roundHalfEven
    simp only [← heq]
    by_cases a1 : x - ((Int.floor x : Int) : α) < 1 / 2
    · simp only [a1, if_true]
      split_ifs <;> omega
    · have b1 : ¬ y - ((Int.floor x : Int) : α) < 1 / 2 := by
        intro hb
        apply a1
        linarith
      simp only [a1, b1, if_false]
      by_cases a2 : 1 / 2 < x - ((Int.floor x : Int) : α)
      · have b2 : 1 / 2 < y - ((Int.floor x : Int) : α) := by linarith
        simp only [a2, b2, if_true, le_refl]
      · simp only [a2, if_false]
        split_ifs <;> omega

/-- The binade of a positive number fixes its logarithm. -/
theorem log_two_eq (x : α) (e : Int) (hx : 0 < x) (h1 : (2 : α) ^ e ≤ x)
    (h2 : x < (2 : α) ^ (e + 1)) : Int.log 2 x = e := by
  have a : e ≤ Int.log 2 x := by
    rw [← Int.zpow_le_iff_le_log (by norm_num) hx]
    simpa using h1
  have b : Int.log 2 x < e + 1 := by
    rw [← Int.lt_zpow_iff_log_lt (by norm_num) hx]
    simpa using h2
  omega

/-- The binade of a positive number. -/
theorem binade (x : α) (hx : 0 < x) :
    (2 : α) ^ Int.log 2 x ≤ x ∧ x < (2 : α) ^ (Int.log 2 x + 1) := by
  have a := Int.zpow_log_le_self (b := 2) (r := x) (by norm_num) hx
  have b := Int.lt_zpow_succ_log_self (b := 2) (by norm_num) x
  constructor
  · simpa using a
  · simpa using b

theorem roundMag_eq (x : α) (e : Int) (hx : 0 < x) (h1 : (2 : α) ^ e ≤ x)
    (h2 : x < (2 : α) ^ (e + 1)) :
    roundMag x = (roundHalfEven (x / (2 : α) ^ (e - 52)) : α) * (2 : α) ^ (e - 52) := by
  unfold roundMag
  rw [log_two_eq x e hx h1 h2]

theorem roundMag_zero : roundMag (0 : α) = 0 := by
  unfold roundMag
  rw [zero_div]
  have : roundHalfEven (0 : α) = 0 := by
    have := roundHalfEven_intCast (α := α) 0
    simpa using this
  rw [this]
  simp

/-- A rounded positive number stays in the closure of its binade. -/
theorem roundMag_bounds (x : α) (hx : 0 < x) :
    (2 : α) ^ Int.log 2 x ≤ roundMag x ∧ roundMag x ≤ (2 : α) ^ (Int.log 2 x + 1) := by
  obtain ⟨h1, h2⟩ := binade x hx
  have hp : (0 : α) < (2 : α) ^ (Int.log 2 x - 52) := zpow_pos (by norm_num) _
  have e1 : (2 : α) ^ Int.log 2 x = ((2 ^ 52 : Int) : α) * (2 : α) ^ (Int.log 2 x - 52) := by
    rw [zpow_sub₀ (by norm_num : (2 : α) ≠ 0)]
    push_cast
    field_simp
    norm_num
    ring
  have e2 : (2 : α) ^ (Int.log 2 x + 1) = ((2 ^ 53 : Int) : α) * (2 : α) ^ (Int.log 2 x - 52) := by
    rw [zpow_sub₀ (by norm_num : (2 : α) ≠ 0), zpow_add₀ (by norm_num : (2 : α) ≠ 0)]
    push_cast
    field_simp
    norm_num
    ring
  have s1 : ((2 ^ 52 : Int) : α) ≤ x / (2 : α) ^ (Int.log 2 x - 52) := by
    rw [le_div_iff₀ hp, ← e1]
    exact h1
  have s2 : x / (2 : α) ^ (Int.log 2 x - 52) ≤ ((2 ^ 53 : Int) : α) := by
    rw [div_le_iff₀ hp, ← e2]
    exact le_of_lt h2
  have r1 := roundHalfEven_mono s1
  have r2 := roundHalfEven_mono s2
  rw [roundHalfEven_intCast] at r1 r2
  unfold roundMag
  rw [e1, e2]
  constructor
  · exact mul_le_mul_of_nonneg_right (by exact_mod_cast r1) (le_of_lt hp)
  · exact mul_le_mul_of_nonneg_right (by exact_mod_cast r2) (le_of_lt hp)

theorem roundMag_nonneg (x : α) (hx : 0 ≤ x) : 0 ≤ roundMag x := by
  rcases eq_or_lt_of_le hx with h | h
  · rw [← h, roundMag_zero]
  · exact le_trans (le_of_lt (zpow_pos (by norm_num) _)) (roundMag_bounds x h).1

theorem roundMag_mono {x y : α} (hx : 0 ≤ x) (h : x ≤ y) : roundMag x ≤ roundMag y := by
  rcases eq_or_lt_of_le hx with h0 | h0
  · rw [← h0, roundMag_zero]
    exact roundMag_nonneg y (le_trans hx h)
  · have hy : 0 < y := lt_of_lt_of_le h0 h
    have hl : Int.log 2 x ≤ Int.log 2 y := Int.log_mono_right h0 h
    rcases lt_or_eq_of_le hl with hlt | heq
    · have a := (roundMag_bounds x h0).2
      have b := (roundMag_bounds y hy).1
      have c : (2 : α) ^ (Int.log 2 x + 1) ≤ (2 : α) ^ Int.log 2 y :=
        zpow_le_zpow_right₀ (by norm_num) (by omega)
      exact le_trans a (le_trans c b)
    · unfold roundMag
      rw [heq]
      have hp : (0 : α) < (2 : α) ^ (Int.log 2 y - 52) := zpow_pos (by norm_num) _
      apply mul_le_mul_of_nonneg_right _ (le_of_lt hp)
      have : roundHalfEven (x / (2 : α) ^ (Int.log 2 y - 52))
          ≤ roundHalfEven (y / (2 : α) ^ (Int.log 2 y - 52)) :=
        roundHalfEven_mono (div_le_div_of_nonneg_right h (le_of_lt hp))
      exact_mod_cast this

/-- Rounding to binary64 is monotone. -/
theorem roundDouble_mono {x y : α} (h : x ≤ y) : roundDouble x ≤ roundDouble y := by
  unfold roundDouble
  by_cases hx : 0 ≤ x
  · have hy : 0 ≤ y := le_trans hx h
    rw [if_pos hx, if_pos hy]
    exact roundMag_mono hx h
  · rw [if_neg hx]
    have hx1 : 0 ≤ -x := by linarith [not_le.mp hx]
    by_cases hy : 0 ≤ y
    · rw [if_pos hy]
      have a := roundMag_nonneg (-x) hx1
      have b := roundMag_nonneg y hy
      linarith
    · rw [if_neg hy]
      have hy1 : 0 ≤ -y := by linarith [not_le.mp hy]
      have := roundMag_mono hy1 (neg_le_neg h)
      linarith

theorem roundDouble_neg (x : α) : roundDouble (-x) = -roundDouble x := by
  unfold roundDouble
  rcases lt_trichotomy x 0 with h | h | h
  · have h1 : 0 ≤ -x := by linarith
    have h2 : ¬ 0 ≤ x := not_le.mpr h
    rw [if_pos h1, if_neg h2, neg_neg]
  · subst h
    simp [roundMag_zero]
  · have h1 : ¬ 0 ≤ -x := by
      intro hh
      linarith
    have h2 : 0 ≤ x := le_of_lt h
    rw [if_neg h1, if_pos h2, neg_neg]

/-- Evaluation of the rounding of a positive number from its binade and the
rounding of its scaled value. -/
theorem roundDouble_eq (x : α) (e m : Int) (hx : 0 < x) (h1 : (2 : α) ^ e ≤ x)
    (h2 : x < (2 : α) ^ (e + 1)) (hm : roundHalfEven (x / (2 : α) ^ (e - 52)) = m) :
    roundDouble x = (m : α) * (2 : α) ^ (e - 52) := by
  unfold roundDouble
  rw [if_pos (le_of_lt hx), roundMag_eq x e hx h1 h2, hm]

/-- A number with a 53-bit significand is its own rounding. -/
theorem roundDouble_repr (m q : Int) (h1 : 2 ^ 52 ≤ m) (h2 : m < 2 ^ 53) :
    roundDouble ((m : α) * (2 : α) ^ q) = (m : α) * (2 : α) ^ q := by
  have hp : (0 : α) < (2 : α) ^ q := zpow_pos (by norm_num) _
  have hm : (0 : α) < (m : α) := by
    have : (0 : Int) < m := by omega
    exact_mod_cast this
  have c1 : ((2 ^ 52 : Int) : α) ≤ (m : α) := by exact_mod_cast h1
  have c2 : (m : α) < ((2 ^ 53 : Int) : α) := by exact_mod_cast h2
  have key := roundDouble_eq ((m : α) * (2 : α) ^ q) (q + 52) m (mul_pos hm hp) ?_ ?_ ?_
  · rw [key]
    congr 2
    omega
  · rw [zpow_add₀ (by norm_num : (2 : α) ≠ 0)]
    have : (2 : α) ^ (52 : Int) = ((2 ^ 52 : Int) : α) := by norm_num
    rw [this, mul_comm]
    exact mul_le_mul_of_nonneg_right c1 (le_of_lt hp)
  · have e : q + 52 + 1 = q + 53 := by omega
    rw [e, zpow_add₀ (by norm_num : (2 : α) ≠ 0)]
    have : (2 : α) ^ (53 : Int) = ((2 ^ 53 : Int) : α) := by norm_num
    rw [this, mul_comm ((2 : α) ^ q)]
    exact mul_lt_mul_of_pos_right c2 hp
  · have e : q + 52 - 52 = q := by omega
    rw [e, mul_div_assoc, div_self (ne_of_gt hp), mul_one]
    exact roundHalfEven_intCast m

end RoundingLemmas

section RoundedLemmas

/-- With the identity as rounding, the rounded `updateRobotPose` is the exact
one. -/
theorem updateRobotPoseRounded_id (PI : α) (h : Sample α) (s : Engine α) :
    updateRobotPoseRounded id PI h s = updateRobotPose PI h s := by
  rcases h with _ | _ | (_ | (_ | y)) <;>
    simp [updateRobotPoseRounded, updateRobotPose, poseGuard, Sample.truthy, Sample.getY,
      YVal.truthy, JSNum.truthy, JSNum.round, YVal.toNumber, JSNum.sub, JSNum.mul, bind,
      Except.bind, pure, Except.pure]

/-- With the identity as rounding, the rounded `animate` is the exact one. -/
theorem animateRounded_id (sin : α → α) (now : α) (s : Engine α) :
    animateRounded id sin now s = animate sin now s := rfl

/-- The rounded call with a non-zero numeric `y`. -/
theorem rotationAfterRounded_ofY_ne_zero (rnd : α → α) (PI y : α) (s : Engine α)
    (hy : y ≠ 0) :
    rotationAfterRounded rnd PI (Sample.ofY y) s
      = .ok (JSNum.num (-(rnd (rnd (rnd (1 - y) * PI) - rnd (PI / 2))))) := by
  simp [rotationAfterRounded, updateRobotPoseRounded, poseGuard, Sample.ofY, Sample.truthy,
    Sample.getY, YVal.truthy, JSNum.truthy, YVal.toNumber, JSNum.sub, JSNum.mul, JSNum.neg,
    JSNum.round, hy, bind, Except.bind, pure, Except.pure, Except.map]

/-- The number `1` is a binary64 number. -/
theorem roundDouble_one : roundDouble (1 : ℝ) = 1 := by
  have h := roundDouble_repr (α := ℝ) (2 ^ 52) (-52) (by norm_num) (by norm_num)
  have e : (((2 ^ 52 : Int) : ℝ)) * (2 : ℝ) ^ (-52 : Int) = 1 := by norm_num
  rw [e] at h
  exact h

/-- The value of `Math.PI` is a binary64 number. -/
theorem roundDouble_doublePI : roundDouble (doublePI : ℝ) = doublePI := by
  have h := roundDouble_repr (α := ℝ) 7074237752028440 (-51) (by norm_num) (by norm_num)
  have e : ((7074237752028440 : Int) : ℝ) * (2 : ℝ) ^ (-51 : Int) = doublePI := by
    norm_num [doublePI]
  rw [e] at h
  exact h

/-- The value of `Math.PI / 2` is a binary64 number. -/
theorem roundDouble_doublePI_half : roundDouble ((doublePI : ℝ) / 2) = doublePI / 2 := by
  have h := roundDouble_repr (α := ℝ) 7074237752028440 (-52) (by norm_num) (by norm_num)
  have e : ((7074237752028440 : Int) : ℝ) * (2 : ℝ) ^ (-52 : Int) = doublePI / 2 := by
    norm_num [doublePI]
  rw [e] at h
  exact h

/-- The sum `1 + 2^-54` rounds to `1`. -/
theorem roundDouble_one_add_tiny : roundDouble ((1 : ℝ) + 1 / 2 ^ 54) = 1 := by
  have h := roundDouble_eq ((1 : ℝ) + 1 / 2 ^ 54) 0 (2 ^ 52) (by norm_num) (by norm_num)
    (by norm_num)
    (roundHalfEven_of_lt_half _ _ (by norm_num) (by norm_num))
  rw [h]
  norm_num

/-- A binary64 number above `1` is at least `1 + 2^-52`. -/
theorem one_add_ulp_le_of_double (y : ℝ) (hy : roundDouble y = y) (h : 1 < y) :
    1 + 1 / 2 ^ 52 ≤ y := by
  by_contra hc
  push_neg at hc
  have e := roundDouble_eq y 0 (roundHalfEven (y / (2 : ℝ) ^ ((0 : Int) - 52)))
    (by linarith) (by norm_num; linarith) (by norm_num; linarith) rfl
  rw [hy] at e
  obtain ⟨m, hm⟩ : ∃ m : Int, y = (m : ℝ) * (2 : ℝ) ^ ((0 : Int) - 52) := ⟨_, e⟩
  have e1 : y * 2 ^ 52 = (m : ℝ) := by
    rw [hm]
    norm_num
    ring
  have l1 : ((2 ^ 52 : Int) : ℝ) < (m : ℝ) := by
    rw [← e1]
    push_cast
    linarith
  have l2 : (m : ℝ) < ((2 ^ 52 + 1 : Int) : ℝ) := by
    rw [← e1]
    push_cast
    have : (1 + 1 / 2 ^ 52 : ℝ) * 2 ^ 52 = 2 ^ 52 + 1 := by norm_num
    nlinarith
  have l3 := Int.cast_lt.mp l1
  have l4 := Int.cast_lt.mp l2
  omega

/-- For `y < 0` the rounded angle is at least `Math.PI / 2`. -/
theorem rounded_angle_ge_of_neg (y : ℝ) (h : y < 0) :
    (doublePI : ℝ) / 2
      ≤ roundDouble (roundDouble (roundDouble (1 - y) * doublePI) - roundDouble (doublePI / 2)) := by
  have hpi : (0 : ℝ) < doublePI := by norm_num [doublePI]
  have a : (1 : ℝ) ≤ roundDouble (1 - y) := by
    have := roundDouble_mono (show (1 : ℝ) ≤ 1 - y by linarith)
    rwa [roundDouble_one] at this
  have b : (doublePI : ℝ) ≤ roundDouble (roundDouble (1 - y) * doublePI) := by
    have := roundDouble_mono (show (doublePI : ℝ) ≤ roundDouble (1 - y) * doublePI by nlinarith)
    rwa [roundDouble_doublePI] at this
  rw [roundDouble_doublePI_half]
  have c := roundDouble_mono (show (doublePI : ℝ) / 2
      ≤ roundDouble (roundDouble (1 - y) * doublePI) - doublePI / 2 by linarith)
  rwa [roundDouble_doublePI_half] at c

/-- For a binary64 `y > 1` the rounded angle is at most
`-(Math.PI / 2 + 3 * 2^-52)`. -/
theorem rounded_angle_le_of_one_lt (y : ℝ) (hy : roundDouble y = y) (h : 1 < y) :
    roundDouble (roundDouble (roundDouble (1 - y) * doublePI) - roundDouble (doublePI / 2))
      ≤ -(7074237752028443 / 2 ^ 52) := by
  have hpi : (0 : ℝ) < doublePI := by norm_num [doublePI]
  have hy1 := one_add_ulp_le_of_double y hy h
  have r1 : roundDouble (-(1 / 2 ^ 52 : ℝ)) = -(1 / 2 ^ 52) := by
    rw [roundDouble_neg]
    have h := roundDouble_repr (α := ℝ) (2 ^ 52) (-104) (by norm_num) (by norm_num)
    have e : (((2 ^ 52 : Int) : ℝ)) * (2 : ℝ) ^ (-104 : Int) = 1 / 2 ^ 52 := by norm_num
    rw [e] at h
    rw [h]
  have r2 : roundDouble (-((doublePI : ℝ) / 2 ^ 52)) = -(doublePI / 2 ^ 52) := by
    rw [roundDouble_neg]
    have h := roundDouble_repr (α := ℝ) 7074237752028440 (-103) (by norm_num) (by norm_num)
    have e : ((7074237752028440 : Int) : ℝ) * (2 : ℝ) ^ (-103 : Int) = doublePI / 2 ^ 52 := by
      norm_num [doublePI]
    rw [e] at h
    rw [h]
  have r3 : roundDouble (-((doublePI : ℝ) / 2 ^ 52 + doublePI / 2))
      = -(7074237752028443 / 2 ^ 52) := by
    rw [roundDouble_neg]
    have h := roundDouble_eq ((doublePI : ℝ) / 2 ^ 52 + doublePI / 2) 0 7074237752028443
      (by norm_num [doublePI]) (by norm_num [doublePI]) (by norm_num [doublePI])
      (roundHalfEven_of_lt_half _ _ (by norm_num [doublePI]) (by norm_num [doublePI]))
    rw [h]
    norm_num
  have a : roundDouble (1 - y) ≤ -(1 / 2 ^ 52 : ℝ) := by
    have := roundDouble_mono (show 1 - y ≤ -(1 / 2 ^ 52 : ℝ) by linarith)
    rwa [r1] at this
  have b : roundDouble (roundDouble (1 - y) * doublePI) ≤ -((doublePI : ℝ) / 2 ^ 52) := by
    have := roundDouble_mono
      (show roundDouble (1 - y) * doublePI ≤ -((doublePI : ℝ) / 2 ^ 52) by
        have : roundDouble (1 - y) * doublePI ≤ -(1 / 2 ^ 52 : ℝ) * doublePI :=
          mul_le_mul_of_nonneg_right a (le_of_lt hpi)
        linarith)
    rwa [r2] at this
  rw [roundDouble_doublePI_half]
  have c := roundDouble_mono
    (show roundDouble (roundDouble (1 - y) * doublePI) - doublePI / 2
        ≤ -((doublePI : ℝ) / 2 ^ 52 + doublePI / 2) by linarith)
  rwa [r3] at c

end RoundedLemmas

section RoundedClaims

/-- C6 (counterexample): in binary64 arithmetic the call with the sample
`{y: -2^-54}`, a negative binary64 number, sets the right arm's x-rotation to
exactly `-Math.PI / 2`, because `1 - y` rounds to `1`; this is not strictly
less than `-Math.PI / 2`, nor than `-π / 2`. -/
theorem updateRobotPose_tiny_negative_not_below :
    roundDouble (-(1 / 2 ^ 54 : ℝ)) = -(1 / 2 ^ 54) ∧
    rotationAfterRounded roundDouble doublePI (Sample.ofY (-(1 / 2 ^ 54 : ℝ)))
        (construct Real.sin ⟨800, 600⟩ 1 (fun _ => 0) 0)
      = .ok (JSNum.num (-(doublePI / 2))) ∧
    ¬ (-((doublePI : ℝ) / 2) < -(doublePI / 2)) ∧
    ¬ (-((doublePI : ℝ) / 2) < -(Real.pi / 2)) := by
  refine ⟨?_, ?_, lt_irrefl _, ?_⟩
  · rw [roundDouble_neg]
    have h := roundDouble_repr (α := ℝ) (2 ^ 52) (-106) (by norm_num) (by norm_num)
    have e : (((2 ^ 52 : Int) : ℝ)) * (2 : ℝ) ^ (-106 : Int) = 1 / 2 ^ 54 := by norm_num
    rw [e] at h
    rw [h]
  · rw [rotationAfterRounded_ofY_ne_zero _ _ _ _ (by norm_num)]
    have e : (1 : ℝ) - -(1 / 2 ^ 54) = 1 + 1 / 2 ^ 54 := by ring
    have e2 : (doublePI : ℝ) - doublePI / 2 = doublePI / 2 := by ring
    rw [e, roundDouble_one_add_tiny, one_mul, roundDouble_doublePI, roundDouble_doublePI_half,
      e2, roundDouble_doublePI_half]
  · have h1 := Real.pi_gt_d20
    have h2 : (doublePI : ℝ) < 3.14159265358979323846 := by norm_num [doublePI]
    intro h
    linarith

/-- C6 (amended): no clamping, in binary64 arithmetic (overflow aside). For
every non-zero binary64 `y` the call sets the right arm's x-rotation to the
rounded value of `-((1 - y) * Math.PI - Math.PI / 2)`, the same expression
outside `[0, 1]` as inside; for `y > 1` this value is strictly greater than
`Math.PI / 2` and than `π / 2`; for `y < 0` it is at most `-Math.PI / 2`. -/
theorem updateRobotPoseRounded_extrapolates (y : ℝ) (s : Engine ℝ)
    (hy : roundDouble y = y) :
    (y ≠ 0 →
      rotationAfterRounded roundDouble doublePI (Sample.ofY y) s
        = .ok (JSNum.num (-(roundDouble
            (roundDouble (roundDouble (1 - y) * doublePI) - roundDouble (doublePI / 2)))))) ∧
    (1 < y →
      doublePI / 2 < -(roundDouble
          (roundDouble (roundDouble (1 - y) * doublePI) - roundDouble (doublePI / 2))) ∧
      Real.pi / 2 < -(roundDouble
          (roundDouble (roundDouble (1 - y) * doublePI) - roundDouble (doublePI / 2)))) ∧
    (y < 0 →
      -(roundDouble (roundDouble (roundDouble (1 - y) * doublePI) - roundDouble (doublePI / 2)))
        ≤ -(doublePI / 2)) := by
  refine ⟨fun h0 => rotationAfterRounded_ofY_ne_zero _ _ _ _ h0, fun h1 => ?_, fun h2 => ?_⟩
  · have h := rounded_angle_le_of_one_lt y hy h1
    have hp := Real.pi_lt_d20
    constructor
    · have : (doublePI : ℝ) / 2 < 7074237752028443 / 2 ^ 52 := by norm_num [doublePI]
      linarith
    · have : (3.14159265358979323847 : ℝ) / 2 < 7074237752028443 / 2 ^ 52 := by norm_num
      linarith
  · have h := rounded_angle_ge_of_neg y h2
    linarith

/-- C6 (witness): the theorem at `y = 2` and at `y = -1`, on a freshly
constructed engine. -/
theorem updateRobotPoseRounded_extrapolates_witness :
    (roundDouble (2 : ℝ) = 2 ∧ (2 : ℝ) ≠ 0 ∧ (1 : ℝ) < 2 ∧
      rotationAfterRounded roundDouble doublePI (Sample.ofY (2 : ℝ))
          (construct Real.sin ⟨800, 600⟩ 1 (fun _ => 0) 0)
        = .ok (JSNum.num (-(roundDouble
            (roundDouble (roundDouble (1 - 2) * doublePI) - roundDouble (doublePI / 2))))) ∧
      Real.pi / 2 < -(roundDouble
          (roundDouble (roundDouble (1 - 2) * doublePI) - roundDouble ((doublePI : ℝ) / 2)))) ∧
    (roundDouble (-1 : ℝ) = -1 ∧ (-1 : ℝ) < 0 ∧
      -(roundDouble
          (roundDouble (roundDouble (1 - (-1)) * doublePI) - roundDouble ((doublePI : ℝ) / 2)))
        ≤ -(doublePI / 2)) :=
  have h2 : roundDouble (2 : ℝ) = 2 := by
    have h := roundDouble_repr (α := ℝ) (2 ^ 52) (-51) (by norm_num) (by norm_num)
    have e : (((2 ^ 52 : Int) : ℝ)) * (2 : ℝ) ^ (-51 : Int) = 2 := by norm_num
    rw [e] at h
    exact h
  have h1 : roundDouble (-1 : ℝ) = -1 := by
    rw [roundDouble_neg, roundDouble_one]
  ⟨⟨h2, by norm_num, by norm_num,
      (updateRobotPoseRounded_extrapolates 2 _ h2).1 (by norm_num),
      ((updateRobotPoseRounded_extrapolates 2
        (construct Real.sin ⟨800, 600⟩ 1 (fun _ => 0) 0) h2).2.1 (by norm_num)).2⟩,
    ⟨h1, by norm_num,
      (updateRobotPoseRounded_extrapolates (-1)
        (construct Real.sin ⟨800, 600⟩ 1 (fun _ => 0) 0) h1).2.2 (by norm_num)⟩⟩

end RoundedClaims

section IdleLemmas

/-- The literal `0.002` denotes `4611686018427388 * 2^-61`. -/
theorem roundDouble_lit_002 : roundDouble (0.002 : ℝ) = 4611686018427388 / 2 ^ 61 := by
  have h := roundDouble_eq (0.002 : ℝ) (-9) (4611686018427387 + 1) (by norm_num) (by norm_num)
    (by norm_num) (roundHalfEven_of_half_lt _ _ (by norm_num) (by norm_num))
  rw [h]
  norm_num

/-- The literal `0.05` denotes `7205759403792794 * 2^-57`. -/
theorem roundDouble_lit_005 : roundDouble (0.05 : ℝ) = 7205759403792794 / 2 ^ 57 := by
  have h := roundDouble_eq (0.05 : ℝ) (-5) (7205759403792793 + 1) (by norm_num) (by norm_num)
    (by norm_num) (roundHalfEven_of_half_lt _ _ (by norm_num) (by norm_num))
  rw [h]
  norm_num

/-- The literal `0.1` denotes `7205759403792794 * 2^-56`. -/
theorem roundDouble_lit_01 : roundDouble (0.1 : ℝ) = 7205759403792794 / 2 ^ 56 := by
  have h := roundDouble_eq (0.1 : ℝ) (-4) (7205759403792793 + 1) (by norm_num) (by norm_num)
    (by norm_num) (roundHalfEven_of_half_lt _ _ (by norm_num) (by norm_num))
  rw [h]
  norm_num

/-- The value of the literal `0.05` is a binary64 number. -/
theorem roundDouble_c005 :
    roundDouble (7205759403792794 / 2 ^ 57 : ℝ) = 7205759403792794 / 2 ^ 57 := by
  have h := roundDouble_repr (α := ℝ) 7205759403792794 (-57) (by norm_num) (by norm_num)
  have e : ((7205759403792794 : Int) : ℝ) * (2 : ℝ) ^ (-57 : Int)
      = 7205759403792794 / 2 ^ 57 := by norm_num
  rw [e] at h
  exact h

/-- The value of the literal `0.1` is a binary64 number. -/
theorem roundDouble_c01 :
    roundDouble (7205759403792794 / 2 ^ 56 : ℝ) = 7205759403792794 / 2 ^ 56 := by
  have h := roundDouble_repr (α := ℝ) 7205759403792794 (-56) (by norm_num) (by norm_num)
  have e : ((7205759403792794 : Int) : ℝ) * (2 : ℝ) ^ (-56 : Int)
      = 7205759403792794 / 2 ^ 56 := by norm_num
  rw [e] at h
  exact h

/-- The sum of the values of `0.05` and `0.1` is a tie between two binary64
numbers and rounds to the even one, above `0.15`. -/
theorem roundDouble_c005_add_c01 :
    roundDouble (7205759403792794 / 2 ^ 57 + 7205759403792794 / 2 ^ 56 : ℝ)
      = 5404319552844596 / 2 ^ 55 := by
  have hm : roundHalfEven
      ((7205759403792794 / 2 ^ 57 + 7205759403792794 / 2 ^ 56 : ℝ) / (2 : ℝ) ^ ((-3 : Int) - 52))
      = 5404319552844596 := by
    rw [roundHalfEven_of_tie _ 5404319552844595 (by norm_num)]
    decide
  have h := roundDouble_eq (7205759403792794 / 2 ^ 57 + 7205759403792794 / 2 ^ 56 : ℝ) (-3)
    5404319552844596 (by norm_num) (by norm_num) (by norm_num) hm
  rw [h]
  norm_num

/-- Zero is its own rounding. -/
theorem roundDouble_zero : roundDouble (0 : ℝ) = 0 := by
  unfold roundDouble
  rw [if_pos le_rfl, roundMag_zero]

/-- The rounded idle offset for a sine value between `-1` and `1`. -/
theorem idle_offset_bounds (v : ℝ) (h1 : -1 ≤ v) (h2 : v ≤ 1) :
    (7205759403792794 / 2 ^ 57 : ℝ)
      ≤ roundDouble (roundDouble (v * roundDouble 0.05) + roundDouble 0.1) ∧
    roundDouble (roundDouble (v * roundDouble 0.05) + roundDouble 0.1)
      ≤ 5404319552844596 / 2 ^ 55 := by
  rw [roundDouble_lit_005, roundDouble_lit_01]
  have lo : -(7205759403792794 / 2 ^ 57 : ℝ) ≤ roundDouble (v * (7205759403792794 / 2 ^ 57)) := by
    have := roundDouble_mono
      (show -(7205759403792794 / 2 ^ 57 : ℝ) ≤ v * (7205759403792794 / 2 ^ 57) by nlinarith)
    rwa [roundDouble_neg, roundDouble_c005] at this
  have hi : roundDouble (v * (7205759403792794 / 2 ^ 57)) ≤ (7205759403792794 / 2 ^ 57 : ℝ) := by
    have := roundDouble_mono
      (show v * (7205759403792794 / 2 ^ 57) ≤ (7205759403792794 / 2 ^ 57 : ℝ) by nlinarith)
    rwa [roundDouble_c005] at this
  constructor
  · have := roundDouble_mono
      (show (7205759403792794 / 2 ^ 57 : ℝ)
          ≤ roundDouble (v * (7205759403792794 / 2 ^ 57)) + 7205759403792794 / 2 ^ 56 by
        linarith)
    rwa [roundDouble_c005] at this
  · have := roundDouble_mono
      (show roundDouble (v * (7205759403792794 / 2 ^ 57)) + 7205759403792794 / 2 ^ 56
          ≤ (7205759403792794 / 2 ^ 57 + 7205759403792794 / 2 ^ 56 : ℝ) by linarith)
    rwa [roundDouble_c005_add_c01] at this

/-- A number in `(1 - 2^-54, 1]` rounds to `1`. -/
theorem roundDouble_near_one (v : ℝ) (h1 : 1 - 1 / 2 ^ 54 < v) (h2 : v ≤ 1) :
    roundDouble v = 1 := by
  rcases eq_or_lt_of_le h2 with h | h
  · rw [h, roundDouble_one]
  · have hm : roundHalfEven (v / (2 : ℝ) ^ ((-1 : Int) - 52)) = 9007199254740991 + 1 := by
      apply roundHalfEven_of_half_lt
      · norm_num
        linarith
      · norm_num
        linarith
    have e := roundDouble_eq v (-1) (9007199254740991 + 1) (by linarith) (by norm_num; linarith)
      (by norm_num; linarith) hm
    rw [e]
    norm_num

/-- The clock value `1794546440572` times the value of `0.002` rounds to
`7526873313876902 * 2^-21`. -/
theorem roundDouble_clock_arg :
    roundDouble ((1794546440572 : ℝ) * roundDouble 0.002) = 7526873313876902 / 2 ^ 21 := by
  rw [roundDouble_lit_002]
  have h := roundDouble_eq ((1794546440572 : ℝ) * (4611686018427388 / 2 ^ 61)) 31
    7526873313876902 (by norm_num) (by norm_num) (by norm_num)
    (roundHalfEven_of_lt_half _ _ (by norm_num) (by norm_num))
  rw [h]
  norm_num

/-- The sine of that argument is within `2^-54` of `1`. -/
theorem sin_clock_arg_near_one :
    1 - 1 / 2 ^ 54 < Real.sin (7526873313876902 / 2 ^ 21) := by
  have h1 := Real.pi_gt_d20
  have h2 := Real.pi_lt_d20
  have e : Real.sin (7526873313876902 / 2 ^ 21)
      = Real.cos (7526873313876902 / 2 ^ 21 - Real.pi / 2
          - ((571221873 : Nat) : ℝ) * (2 * Real.pi)) := by
    rw [Real.cos_sub_nat_mul_two_pi, Real.cos_sub_pi_div_two]
  rw [e]
  have hb := Real.one_sub_sq_div_two_le_cos
    (x := 7526873313876902 / 2 ^ 21 - Real.pi / 2 - ((571221873 : Nat) : ℝ) * (2 * Real.pi))
  have d1 : -(82 / 10 ^ 10 : ℝ)
      < 7526873313876902 / 2 ^ 21 - Real.pi / 2 - ((571221873 : Nat) : ℝ) * (2 * Real.pi) := by
    norm_num at h2 ⊢
    linarith
  have d2 : 7526873313876902 / 2 ^ 21 - Real.pi / 2 - ((571221873 : Nat) : ℝ) * (2 * Real.pi)
      < 0 := by
    norm_num at h1 ⊢
    linarith
  have sq : (7526873313876902 / 2 ^ 21 - Real.pi / 2
      - ((571221873 : Nat) : ℝ) * (2 * Real.pi)) ^ 2 < (82 / 10 ^ 10 : ℝ) ^ 2 := by
    apply sq_lt_sq'
    · exact d1
    · linarith
  have : (82 / 10 ^ 10 : ℝ) ^ 2 / 2 < 1 / 2 ^ 54 := by norm_num
  linarith

end IdleLemmas

section IdleClaims

/-- C7 (counterexample): in binary64 arithmetic, at the clock value
`t = 1794546440572` the argument `t * 0.002` is `7526873313876902 * 2^-21`,
whose sine is within `2^-54` of `1`, so that `Math.sin`, taken as the sine
rounded to the nearest binary64 number, returns `1`; the frame then sets
the vertical position of the robot group to `1 * 0.05 + 0.1`, which is the
binary64 number `5404319552844596 * 2^-55 = 0.15000000000000002`, strictly
above `0.15`. -/
theorem animate_offset_exceeds_bound :
    roundDouble (Real.sin (roundDouble ((1794546440572 : ℝ) * roundDouble 0.002))) = 1 ∧
    (animateRounded roundDouble (fun x => roundDouble (Real.sin x)) 1794546440572
        (construct Real.sin ⟨800, 600⟩ 1 (fun _ => 0) 0)).robot.position.y
      = 5404319552844596 / 2 ^ 55 ∧
    (0.15 : ℝ) < (animateRounded roundDouble (fun x => roundDouble (Real.sin x)) 1794546440572
        (construct Real.sin ⟨800, 600⟩ 1 (fun _ => 0) 0)).robot.position.y := by
  have hs : roundDouble (Real.sin (roundDouble ((1794546440572 : ℝ) * roundDouble 0.002)))
      = 1 := by
    rw [roundDouble_clock_arg]
    exact roundDouble_near_one _ sin_clock_arg_near_one (Real.sin_le_one _)
  have hy : (animateRounded roundDouble (fun x => roundDouble (Real.sin x)) 1794546440572
      (construct Real.sin ⟨800, 600⟩ 1 (fun _ => 0) 0)).robot.position.y
      = 5404319552844596 / 2 ^ 55 := by
    show roundDouble (roundDouble
      (roundDouble (Real.sin (roundDouble ((1794546440572 : ℝ) * roundDouble 0.002)))
        * roundDouble 0.05) + roundDouble 0.1) = 5404319552844596 / 2 ^ 55
    rw [hs, one_mul, roundDouble_lit_005, roundDouble_lit_01, roundDouble_c005,
      roundDouble_c005_add_c01]
  refine ⟨hs, hy, ?_⟩
  rw [hy]
  norm_num

/-- C7 (amended): in binary64 arithmetic, for every `Math.sin` with values in
`[-1, 1]` and `Math.sin(0) = 0`, and for every clock value `t`, one `animate`
frame sets the vertical position of the robot group to the rounded value of
`sin (t * 0.002) * 0.05 + 0.1`; this value is at least `0.05` and at most the
binary64 number `5404319552844596 * 2^-55 = 0.15000000000000002`; at `t = 0`
it is the binary64 number that the literal `0.1` denotes; the frame leaves
the rotation of both arms as it was. -/
theorem animateRounded_idle_offset (sin : ℝ → ℝ) (hsin : ∀ x, -1 ≤ sin x ∧ sin x ≤ 1)
    (hsin0 : sin 0 = 0) (t : ℝ) (s : Engine ℝ) :
    (animateRounded roundDouble sin t s).robot.position.y
      = roundDouble (roundDouble (sin (roundDouble (t * roundDouble 0.002)) * roundDouble 0.05)
          + roundDouble 0.1) ∧
    0.05 ≤ (animateRounded roundDouble sin t s).robot.position.y ∧
    (animateRounded roundDouble sin t s).robot.position.y ≤ 5404319552844596 / 2 ^ 55 ∧
    (animateRounded roundDouble sin 0 s).robot.position.y = roundDouble 0.1 ∧
    (animateRounded roundDouble sin t s).leftArm.rotation = s.leftArm.rotation ∧
    (animateRounded roundDouble sin t s).rightArm.rotation = s.rightArm.rotation := by
  have hb := idle_offset_bounds (sin (roundDouble (t * roundDouble 0.002)))
    (hsin _).1 (hsin _).2
  refine ⟨rfl, ?_, ?_, ?_, rfl, rfl⟩
  · show (0.05 : ℝ) ≤ roundDouble (roundDouble
      (sin (roundDouble (t * roundDouble 0.002)) * roundDouble 0.05) + roundDouble 0.1)
    have : (0.05 : ℝ) ≤ 7205759403792794 / 2 ^ 57 := by norm_num
    linarith [hb.1]
  · exact hb.2
  · show roundDouble (roundDouble
      (sin (roundDouble (0 * roundDouble 0.002)) * roundDouble 0.05) + roundDouble 0.1)
      = roundDouble 0.1
    rw [zero_mul, roundDouble_zero, hsin0, zero_mul, roundDouble_zero, zero_add,
      roundDouble_lit_01, roundDouble_c01]

/-- C7 (witness): the theorem for `Math.sin` the sine rounded to the nearest
binary64 number, at the clock value `t = 16`, on a freshly constructed
engine. -/
theorem animateRounded_idle_offset_witness :
    (∀ x : ℝ, -1 ≤ roundDouble (Real.sin x) ∧ roundDouble (Real.sin x) ≤ 1) ∧
    roundDouble (Real.sin 0) = 0 ∧
    0.05 ≤ (animateRounded roundDouble (fun x => roundDouble (Real.sin x)) 16
        (construct Real.sin ⟨800, 600⟩ 1 (fun _ => 0) 0)).robot.position.y ∧
    (animateRounded roundDouble (fun x => roundDouble (Real.sin x)) 16
        (construct Real.sin ⟨800, 600⟩ 1 (fun _ => 0) 0)).robot.position.y
      ≤ 5404319552844596 / 2 ^ 55 ∧
    (animateRounded roundDouble (fun x => roundDouble (Real.sin x)) 0
        (construct Real.sin ⟨800, 600⟩ 1 (fun _ => 0) 0)).robot.position.y
      = roundDouble 0.1 :=
  have h1 : ∀ x : ℝ, -1 ≤ roundDouble (Real.sin x) ∧ roundDouble (Real.sin x) ≤ 1 := by
    intro x
    constructor
    · have := roundDouble_mono (Real.neg_one_le_sin x)
      rwa [roundDouble_neg, roundDouble_one] at this
    · have := roundDouble_mono (Real.sin_le_one x)
      rwa [roundDouble_one] at this
  have h0 : roundDouble (Real.sin 0) = 0 := by
    rw [Real.sin_zero, roundDouble_zero]
  have h := animateRounded_idle_offset (fun x => roundDouble (Real.sin x)) h1 h0 16
    (construct Real.sin ⟨800, 600⟩ 1 (fun _ => 0) 0)
  ⟨h1, h0, h.2.1, h.2.2.1, h.2.2.2.1⟩

end IdleClaims

end Holodeck
